import Mathlib

/-!
Verification of the metadata-cache, synchroniser, hash-verification and
authentication subsystems of the s3-to-webdav server.

The Go code is shallowly embedded:

* Go strings (byte sequences, compared by `memcmp`; SQLite `TEXT` with the
  default `BINARY` collation compares the same way) become `List Nat` of
  byte values.
* The SQLite `entries` table becomes a `List EntryInfo` of rows.  SQL
  `WHERE`/`ORDER BY`/`LIMIT` become `List.filter`, `List.insertionSort`
  and `List.take`.  `LIKE 'x%'` on a pattern free of the `%`/`_`
  metacharacters is prefix matching, and is embedded as `isPrefixOf`.
* Fallible operations return `Except String`; the transactional
  all-or-nothing behaviour of the Go code (`defer tx.Rollback()` with a
  `tx.Commit()` only on the success path) is embedded by returning
  `Except.error` without exposing any intermediate table.
-/

namespace S3W

/-- Go strings are byte sequences; embedded as lists of byte values. -/
abbrev GoStr := List Nat

/-- The byte value of `/`. -/
def slashByte : Nat := 47

/-- Bytewise lexicographic strict order: Go `<` on strings and SQLite
`BINARY` collation order on `TEXT`. -/
def ltStr : GoStr → GoStr → Bool
  | [], [] => false
  | [], _ :: _ => true
  | _ :: _, [] => false
  | a :: as, b :: bs => if a < b then true else if b < a then false else ltStr as bs

/-- Bytewise lexicographic non-strict order. -/
def leStr (a b : GoStr) : Bool := !(ltStr b a)

/-- `strings.HasPrefix(s, p)` / SQLite `s LIKE p || '%'` for a
metacharacter-free `p`. -/
def hasPrefixB (s p : GoStr) : Bool := p.isPrefixOf s

/-- `strings.HasSuffix(s, "/")`. -/
def endsWithSlash (s : GoStr) : Bool := s.getLast? == some slashByte

/-- `strings.HasPrefix(s, "/")`. -/
def startsWithSlash (s : GoStr) : Bool := s.head? == some slashByte

/-- SQLite `rtrim(s, '/')`: strip all trailing `/` bytes. -/
def rtrimSlash (s : GoStr) : GoStr := (s.reverse.dropWhile (· == slashByte)).reverse

/-- SQLite `rtrim(path, replace(path, '/', ''))`: the trim set is every
byte of `path` other than `/`, so the expression truncates `path` just
after its last `/` (and to the empty string when `path` has no `/`). -/
def dirnamePart (s : GoStr) : GoStr := (s.reverse.dropWhile (fun c => !(c == slashByte))).reverse

/-- One row of the `entries` table (`fs.EntryInfo` plus the server-side
`updated_at` column). -/
structure EntryInfo where
  path : GoStr
  size : Int
  lastModified : Int
  isDir : Bool
  updatedAt : Int
  processed : Bool
  deriving DecidableEq, Repr

/-- The `entries` table. -/
abbrev Table := List EntryInfo

/-- Row order used by `ORDER BY path` (ascending). -/
def entLE (a b : EntryInfo) : Prop := leStr a.path b.path = true

/-- Row order used by `ORDER BY path DESC`. -/
def entGE (a b : EntryInfo) : Prop := leStr b.path a.path = true

instance : DecidableRel entLE := fun a b => by unfold entLE; infer_instance

instance : DecidableRel entGE := fun a b => by unfold entGE; infer_instance

/-- `ORDER BY path` ascending. -/
def sortAsc (t : Table) : Table := List.insertionSort entLE t

/-- `ORDER BY path DESC`. -/
def sortDesc (t : Table) : Table := List.insertionSort entGE t

/-! ## `cacheDB.Insert` (cache_db.go lines 95-147) -/

/-- The per-object validation of `cacheDB.Insert`: reject a path starting
with `/` and a trailing slash that disagrees with `is_dir`. -/
def insertValid (o : EntryInfo) : Bool :=
  !(startsWithSlash o.path) &&
    (if o.isDir then endsWithSlash o.path else !(endsWithSlash o.path))

/-- The `ON CONFLICT DO UPDATE` upsert of one row: on a `path` conflict
overwrite `size`, `is_dir`, `updated_at`, keep the larger
`last_modified`, and take the maximum (logical OR) of `processed`;
otherwise append a fresh row. -/
def upsert (now : Int) (o : EntryInfo) (t : Table) : Table :=
  if t.any (fun e => e.path == o.path) then
    t.map (fun e =>
      if e.path == o.path then
        { path := e.path, size := o.size,
          lastModified := max o.lastModified e.lastModified,
          isDir := o.isDir, updatedAt := now,
          processed := e.processed || o.processed }
      else e)
  else
    t ++ [{ path := o.path, size := o.size, lastModified := o.lastModified,
            isDir := o.isDir, updatedAt := now, processed := o.processed }]

/-- The statement-execution loop of `cacheDB.Insert`; an error anywhere
aborts the transaction (the rollback is the `Except.error` result). -/
def insertLoop (now : Int) : List EntryInfo → Table → Except String Table
  | [], t => .ok t
  | o :: os, t =>
    if startsWithSlash o.path then .error "object path cannot start with /"
    else if o.isDir then
      if !(endsWithSlash o.path) then .error "directory path must end with /"
      else insertLoop now os (upsert now o t)
    else
      if endsWithSlash o.path then .error "file path cannot end with /"
      else insertLoop now os (upsert now o t)

/-- `cacheDB.Insert`: batch upsert in one transaction. -/
def insertOp (now : Int) (objs : List EntryInfo) (t : Table) : Except String Table :=
  if objs.isEmpty then .ok t else insertLoop now objs t

/-! ## `cacheDB.Stat` (cache_db.go lines 257-262) -/

/-- `cacheDB.Stat`: single-row lookup by exact path. -/
def statOp (p : GoStr) (t : Table) : Except String EntryInfo :=
  if startsWithSlash p then .error "object path cannot start with /"
  else
    match t.find? (fun e => e.path == p) with
    | some e => .ok e
    | none => .error "no rows"

/-! ## `cacheDB.Delete` (cache_db.go lines 277-320) -/

/-- The rows hit by `cacheDB.Delete`: subtree by `LIKE path || '%'` when
`path` ends with `/`, exact row otherwise. -/
def deleteMatches (p : GoStr) (e : EntryInfo) : Bool :=
  if endsWithSlash p then hasPrefixB e.path p else e.path == p

/-- `cacheDB.Delete`.  The Go code commits only when exactly one row was
deleted: zero affected rows return success (the transaction is rolled
back, which deletes nothing anyway), and more than one affected row
returns the `multiple entries deleted` error BEFORE `tx.Commit()`, so the
deferred rollback restores every row. -/
def deleteOp (p : GoStr) (t : Table) : Except String Table :=
  if startsWithSlash p then .error "object path cannot start with /"
  else
    let n := (t.filter (deleteMatches p)).length
    if n == 0 then .ok t
    else if 1 < n then .error "multiple entries deleted"
    else .ok (t.filter (fun e => !(deleteMatches p e)))

/-! ## `cacheDB.List` (cache_db.go lines 205-254) -/

/-- The `marker` restriction: `path > marker` when non-empty. -/
def markerCond (mkr : GoStr) (e : EntryInfo) : Bool :=
  mkr.isEmpty || ltStr mkr e.path

/-- The `prefix` restriction: `path > prefix AND path < prefix || x'FF'`
when non-empty. -/
def rangeCond (pfx : GoStr) (e : EntryInfo) : Bool :=
  pfx.isEmpty || (ltStr pfx e.path && ltStr e.path (pfx ++ [255]))

/-- The `dirOnly` restriction: `rtrim(path, '/') NOT LIKE pfx || '%/%'`,
i.e. NOT (the slash-stripped path extends `pfx` and has a `/` at or after
position `|pfx|`). -/
def dirOnlyCond (pfx : GoStr) (e : EntryInfo) : Bool :=
  !(hasPrefixB (rtrimSlash e.path) pfx &&
    ((rtrimSlash e.path).drop pfx.length).contains slashByte)

/-- The full `WHERE` clause of `cacheDB.List`. -/
def listWhere (pfx mkr : GoStr) (dirOnly : Bool) (e : EntryInfo) : Bool :=
  markerCond mkr e && rangeCond pfx e &&
    (if dirOnly then dirOnlyCond pfx e else !e.isDir)

/-- `cacheDB.List`: validate, filter, order by path, fetch `limit+1` rows
to detect truncation, return at most `limit`. -/
def listOp (pfx mkr : GoStr) (dirOnly : Bool) (limit : Nat) (t : Table) :
    Except String (Table × Bool) :=
  if startsWithSlash pfx then .error "prefix cannot start with /"
  else if !(endsWithSlash pfx) && !pfx.isEmpty then .error "prefix must end with /"
  else if startsWithSlash mkr then .error "marker cannot start with /"
  else
    let rows := (sortAsc (t.filter (listWhere pfx mkr dirOnly))).take (limit + 1)
    .ok (rows.take limit, decide (limit < rows.length))

/-! ## `cacheDB.GetStats` (cache_db.go lines 323-344) -/

/-- `cacheDB.GetStats`: `(processed, pending, total size)` aggregated over
rows whose path starts with `prefix`. -/
def getStats (pfx : GoStr) (t : Table) : Except String (Nat × Nat × Int) :=
  if startsWithSlash pfx then .error "object path cannot start with /"
  else if !(endsWithSlash pfx) then .error "prefix must end with /"
  else
    let rows := t.filter (fun e => hasPrefixB e.path pfx)
    .ok ((rows.filter (fun e => e.processed)).length,
         (rows.filter (fun e => !e.processed)).length,
         (rows.map (fun e => e.size)).sum)

/-! ## `cacheDB.ListPendingDirs` (cache_db.go lines 346-355) -/

/-- `cacheDB.ListPendingDirs`: unprocessed directories under `prefix`,
ascending by path, at most `limit`. -/
def listPendingDirs (pfx : GoStr) (limit : Nat) (t : Table) : Except String Table :=
  if startsWithSlash pfx then .error "prefix cannot start with /"
  else if !(endsWithSlash pfx) then .error "prefix must end with /"
  else
    .ok ((sortAsc (t.filter (fun e =>
      hasPrefixB e.path pfx && !e.processed && e.isDir))).take limit)

/-! ## `cacheDB.ListDanglingDirs` (cache_db.go lines 357-369) -/

/-- The subquery `SELECT DISTINCT rtrim(path, replace(path, '/', ''))
FROM entries WHERE path LIKE pfx || '%'` (`NOT IN` only tests membership,
so `DISTINCT` is immaterial). -/
def parentDirSet (pfx : GoStr) (t : Table) : List GoStr :=
  (t.filter (fun e => hasPrefixB e.path pfx)).map (fun e => dirnamePart e.path)

/-- `cacheDB.ListDanglingDirs`: processed directories under `prefix` whose
`path || '/'` is not in the parent-directory set, descending by path. -/
def listDanglingDirs (pfx : GoStr) (limit : Nat) (t : Table) : Except String Table :=
  if startsWithSlash pfx then .error "prefix cannot start with /"
  else if !(endsWithSlash pfx) then .error "prefix must end with /"
  else
    .ok ((sortDesc (t.filter (fun e =>
      hasPrefixB e.path pfx && e.processed && e.isDir &&
        !((parentDirSet pfx t).contains (e.path ++ [slashByte]))))).take limit)

/-! ## `cacheDB.DeleteDanglingFiles` (cache_db.go lines 371-379) -/

/-- `cacheDB.DeleteDanglingFiles`: delete unprocessed files under
`prefix`, returning the affected-row count. -/
def deleteDanglingFiles (pfx : GoStr) (t : Table) : Except String (Nat × Table) :=
  if startsWithSlash pfx then .error "prefix cannot start with /"
  else if !(endsWithSlash pfx) then .error "prefix must end with /"
  else
    let hit := fun (e : EntryInfo) => hasPrefixB e.path pfx && !e.isDir && !e.processed
    .ok ((t.filter hit).length, t.filter (fun e => !hit e))

/-! ## `cacheDB.SetProcessed` (cache_db.go lines 381-390) -/

/-- `cacheDB.SetProcessed`: recursive (prefix) or single-row update of the
`processed` flag, returning how many rows changed. -/
def setProcessed (pfx : GoStr) (recursive value : Bool) (t : Table) :
    Except String (Nat × Table) :=
  if startsWithSlash pfx then .error "object path cannot start with /"
  else
    let hit := fun (e : EntryInfo) =>
      (if endsWithSlash pfx && recursive then hasPrefixB e.path pfx else e.path == pfx)
        && !(e.processed == value)
    .ok ((t.filter hit).length,
         t.map (fun e => if hit e then { e with processed := value } else e))

/-! ## Invariants and example inputs -/

/-- Path uniqueness: the `UNIQUE` constraint on the `path` column. -/
def NodupPaths (t : Table) : Prop := (t.map (fun e => e.path)).Nodup

instance (t : Table) : Decidable (NodupPaths t) := by unfold NodupPaths; infer_instance

/-- The structural invariant actually enforced by the cache boundary: no
leading slash, and a trailing slash exactly when `is_dir`. -/
def entryInv (e : EntryInfo) : Bool :=
  !(startsWithSlash e.path) && (endsWithSlash e.path == e.isDir)

/-- `"a/"` -/
def pA : GoStr := [97, 47]

/-- `"a/x"` -/
def pAX : GoStr := [97, 47, 120]

/-- `"b/"` -/
def pB : GoStr := [98, 47]

/-- `"b/d/"` -/
def pBD : GoStr := [98, 47, 100, 47]

/-- `"b/f"` -/
def pBF : GoStr := [98, 47, 102]

/-- `"b/d/x"` -/
def pBDX : GoStr := [98, 47, 100, 47, 120]

/-- `"n"` -/
def pN : GoStr := [110]

/-- A directory row. -/
def dirRow (p : GoStr) (processed : Bool) : EntryInfo :=
  ⟨p, 0, 0, true, 0, processed⟩

/-- A file row. -/
def fileRow (p : GoStr) (sz : Int) (processed : Bool) : EntryInfo :=
  ⟨p, sz, 0, false, 0, processed⟩

/-- A file entry with an empty path: accepted by `cacheDB.Insert` (an
empty string neither starts nor ends with `/`). -/
def rEmptyPath : EntryInfo := ⟨[], 0, 0, false, 0, true⟩

/-- A directory entry with a non-zero size: accepted by `cacheDB.Insert`
(no size check exists; the repository's own tests insert directories with
size 1024). -/
def rFatDir : EntryInfo := ⟨pBD, 1024, 0, true, 0, true⟩

/-- The table produced by inserting `rEmptyPath` and `rFatDir` into an
empty cache at time 5. -/
def u0 : Table := [⟨[], 0, 0, false, 5, true⟩, ⟨pBD, 1024, 0, true, 5, true⟩]

/-! ## The synchroniser (sync/sync.go), sequentialised

`Sync.Sync` drives a 2-worker pool over the cache-persisted queue of
pending directories.  The workers share no mutable state except the
cache, whose operations are individually atomic, and each walk touches
rows under its own directory only, so the final cache state of a
completed run equals that of the sequential schedule embedded here (the
claim additionally assumes no concurrent mutation). -/

/-- One node of the backend filesystem tree served by the `fs.Fs`
adapter.  Directories carry the size and mtime their `os.FileInfo`
reports (the walker stores `info.Size()` whether or not the child is a
directory). -/
inductive FsNode where
  | file (size mtime : Int) : FsNode
  | dir (size mtime : Int) (children : List (GoStr × FsNode)) : FsNode

mutual

/-- Resolve a relative segment path to the listing of the directory it
names. -/
def resolveDir : FsNode → List GoStr → Option (List (GoStr × FsNode))
  | .file _ _, _ => none
  | .dir _ _ cs, [] => some cs
  | .dir _ _ cs, n :: rest => resolveInList cs n rest

/-- Find the child named `n` and resolve the remaining segments in it. -/
def resolveInList : List (GoStr × FsNode) → GoStr → List GoStr → Option (List (GoStr × FsNode))
  | [], _, _ => none
  | (m, c) :: cs, n, rest => if m == n then resolveDir c rest else resolveInList cs n rest

end

/-- Child lookup within one directory listing. -/
def lookupChild : List (GoStr × FsNode) → GoStr → Option FsNode
  | [], _ => none
  | (m, c) :: cs, n => if m == n then some c else lookupChild cs n

mutual

/-- All files in the subtree rooted at a directory path (the path of a
directory ends with `/`), with their sizes. -/
def treeFiles : GoStr → FsNode → List (GoStr × Int)
  | _, .file _ _ => []
  | p, .dir _ _ cs => treeFilesList p cs

/-- `treeFiles` over a child list. -/
def treeFilesList : GoStr → List (GoStr × FsNode) → List (GoStr × Int)
  | _, [] => []
  | p, (n, .file sz _) :: cs => (p ++ n, sz) :: treeFilesList p cs
  | p, (n, .dir sz mt ds) :: cs =>
    treeFiles (p ++ n ++ [slashByte]) (.dir sz mt ds) ++ treeFilesList p cs

end

/-- Split a relative path into `/`-terminated segments (`a/b/` into
`[a, b]`); `none` for empty segments or a missing final separator.  The
accumulator holds the current segment reversed. -/
def parseSegsAux : GoStr → GoStr → Option (List GoStr)
  | cur, [] => if cur.isEmpty then some [] else none
  | cur, c :: rest =>
    if c == slashByte then
      if cur.isEmpty then none
      else
        match parseSegsAux [] rest with
        | some segs => some (cur.reverse :: segs)
        | none => none
    else parseSegsAux (c :: cur) rest

/-- Parse a slash-terminated relative path into its segments. -/
def parseSegs (rel : GoStr) : Option (List GoStr) := parseSegsAux [] rel

/-- `fs.Fs.ReadDir` against the bucket tree: a cache-namespace path is
the prefix followed by slash-terminated segments; anything unresolvable
or malformed is NotFound (`none`). -/
def readDirM (tree : FsNode) (pfx p : GoStr) : Option (List (GoStr × FsNode)) :=
  if hasPrefixB p pfx then
    match parseSegs (p.drop pfx.length) with
    | some segs => resolveDir tree segs
    | none => none
  else none

/-- `filepath.Join(path, name)` followed by the backslash replacement,
for a clean path and a clean name (non-empty, no separators, not `.` or
`..`): Join inserts a separator only when the left part does not end
with one, and otherwise concatenates. -/
def joinChild (p n : GoStr) : GoStr :=
  if endsWithSlash p then p ++ n else p ++ [slashByte] ++ n

/-- The entry `Sync.walkDir` builds for one backend child: files are
born processed, directories pending; `updated_at` is assigned by
`Insert`. -/
def childEntry (p : GoStr) (c : GoStr × FsNode) : EntryInfo :=
  match c.2 with
  | .file sz mt => ⟨joinChild p c.1, sz, mt, false, 0, true⟩
  | .dir sz mt _ => ⟨joinChild p c.1 ++ [slashByte], sz, mt, true, 0, false⟩

/-- The body of `Sync.walkDir` after the recently-processed check: read
the directory, treat NotFound as processed, otherwise insert the child
batch and close out the directory. -/
def walkCoreM (tree : FsNode) (pfx : GoStr) (now : Int) (p : GoStr) (t : Table) :
    Except String Table :=
  match readDirM tree pfx p with
  | none =>
    match setProcessed p false true t with
    | .ok r => .ok r.2
    | .error msg => .error msg
  | some cs =>
    match insertOp now (cs.map (childEntry p)) t with
    | .error msg => .error msg
    | .ok t1 =>
      match setProcessed p false true t1 with
      | .ok r => .ok r.2
      | .error msg => .error msg

/-- `Sync.walkDir`: skip entries that are no longer pending directories,
then run the walk body. -/
def walkDirM (tree : FsNode) (pfx : GoStr) (now : Int) (p : GoStr) (t : Table) :
    Except String Table :=
  match statOp p t with
  | .ok e => if !e.isDir || e.processed then .ok t else walkCoreM tree pfx now p t
  | .error _ => walkCoreM tree pfx now p t

/-- One driver round: walk every directory of the current pending page
(the driver pops from the end of the queue; a walk error is logged and
leaves the cache as it was for that directory). -/
def syncRound (tree : FsNode) (pfx : GoStr) (now : Int) (queue : List EntryInfo)
    (t : Table) : Table :=
  queue.reverse.foldl (fun acc d =>
    match walkDirM tree pfx now d.path acc with
    | .ok u => u
    | .error _ => acc) t

/-- The walk loop of `Sync.Sync`: list a page of pending directories and
walk it, until no pending directory remains (a listing error breaks the
loop); `fuel` bounds the number of rounds. -/
def syncLoop (tree : FsNode) (pfx : GoStr) (now : Int) : Nat → Table → Option Table
  | 0, _ => none
  | fuel + 1, t =>
    match listPendingDirs pfx 50 t with
    | .error _ => some t
    | .ok [] => some t
    | .ok queue => syncLoop tree pfx now fuel (syncRound tree pfx now queue t)

/-- `Sync.Sync`: ensure the bucket root entry exists as a directory
(created pending when absent or not a directory), return immediately
when nothing is pending, otherwise run the walk loop and finally sweep
dangling files.  `none` models a run that did not complete (a fatal
error or exhausted fuel). -/
def syncM (tree : FsNode) (bucket : GoStr) (now : Int) (fuel : Nat) (t0 : Table) :
    Option Table :=
  let pfx := bucket ++ [slashByte]
  let rootOk :=
    match statOp pfx t0 with
    | .ok e => e.isDir
    | .error _ => false
  match (if rootOk then .ok t0 else insertOp now [⟨pfx, 0, now, true, 0, false⟩] t0 :
      Except String Table) with
  | .error _ => none
  | .ok t1 =>
    match getStats pfx t1 with
    | .error _ => none
    | .ok (_, pending, _) =>
      if pending == 0 then some t1
      else
        match syncLoop tree pfx now fuel t1 with
        | none => none
        | some t2 =>
          match deleteDanglingFiles pfx t2 with
          | .error _ => some t2
          | .ok r => some r.2

/-- Well-formed backend names: non-empty, free of separators and of the
`.`/`..` segments `filepath.Join` would rewrite, and valid UTF-8 content
(no `0xFF` byte). -/
def wfName (n : GoStr) : Bool :=
  !n.isEmpty && n.all (fun b => !(b == slashByte) && !(b == 92) && b < 255) &&
    !(n == [46]) && !(n == [46, 46])

/-- Well-formed backend trees: well-formed, duplicate-free child names
throughout. -/
inductive WfTree : FsNode → Prop where
  | file : ∀ sz mt, WfTree (.file sz mt)
  | dir : ∀ sz mt cs, (cs.map Prod.fst).Nodup →
      (∀ c ∈ cs, wfName c.1 = true) → (∀ c ∈ cs, WfTree c.2) →
      WfTree (.dir sz mt cs)

/-- A processed file row with the given path and size. -/
def FileRowAt (t : Table) (p : GoStr) (sz : Int) : Prop :=
  ∃ e ∈ t, e.path = p ∧ e.size = sz ∧ e.isDir = false ∧ e.processed = true

/-- A directory row with the given path. -/
def DirRowAt (t : Table) (p : GoStr) : Prop := ∃ e ∈ t, e.path = p ∧ e.isDir = true

/-- One backend child of the directory at `p` is reflected in the cache:
files with their backend size, marked processed; directories as rows. -/
def ChildCovered (t : Table) (p : GoStr) (c : GoStr × FsNode) : Prop :=
  match c.2 with
  | .file sz _ => FileRowAt t (joinChild p c.1) sz
  | .dir _ _ _ => DirRowAt t (joinChild p c.1 ++ [slashByte])

/-- The walk invariant: every processed row under the prefix whose path
resolves on the backend has all its backend children reflected in the
cache. -/
def WalkInv (tree : FsNode) (pfx : GoStr) (t : Table) : Prop :=
  ∀ e ∈ t, e.processed = true → hasPrefixB e.path pfx = true →
    ∀ cs, readDirM tree pfx e.path = some cs → ∀ c ∈ cs, ChildCovered t e.path c

/-- Every row under the prefix is unprocessed (the state after a reset,
or a fresh cache). -/
def AllPendingUnder (pfx : GoStr) (t : Table) : Prop :=
  ∀ e ∈ t, hasPrefixB e.path pfx = true → e.processed = false

instance (pfx : GoStr) (t : Table) : Decidable (AllPendingUnder pfx t) := by
  unfold AllPendingUnder
  infer_instance

/-- No pending directory remains under the prefix. -/
def NoPendingDirs (pfx : GoStr) (t : Table) : Prop :=
  ∀ e ∈ t, hasPrefixB e.path pfx = true → e.isDir = true → e.processed = true

/-- A one-file backend bucket: `b` holding the 5-byte file `x` (modified
at 7). -/
def tree1 : FsNode := .dir 0 0 [([120], FsNode.file 5 7)]

/-- The cache produced by a full sync of `tree1` into an empty cache at
time 3. -/
def tFw : Table :=
  [⟨[98, 47], 0, 3, true, 3, true⟩, ⟨[98, 47, 120], 5, 7, false, 3, true⟩]

/-! ## The spec-side file-listing restriction and iterated listing -/

/-- The file-listing restriction as the SPEC words it (for comparison
with the code's range condition): file entries only, strict descendants
of a non-empty prefix, strictly after a non-empty marker. -/
def specFileMatch (pfx mkr : GoStr) (e : EntryInfo) : Bool :=
  !e.isDir && (pfx.isEmpty || (hasPrefixB e.path pfx && !(e.path == pfx))) &&
    (mkr.isEmpty || ltStr mkr e.path)

/-- Iterated listing: call `List`, and while `truncated` holds continue
with the marker set to the last returned entry's path, concatenating the
pages.  `fuel` bounds the number of pages. -/
def listPages : Nat → GoStr → GoStr → Nat → Table → Option Table
  | 0, _, _, _, _ => none
  | fuel + 1, pfx, mkr, k, t =>
    match listOp pfx mkr false k t with
    | .error _ => none
    | .ok (rows, truncated) =>
      if truncated then
        match rows.getLast? with
        | none => none
        | some lastRow =>
          match listPages fuel pfx lastRow.path k t with
          | none => none
          | some rest => some (rows ++ rest)
      else some rows

/-! ## The streaming SHA-256 verifier (s3/hash_verifier.go) -/

/-- One lowercase hex digit. -/
def hexDigit (n : Nat) : Nat := if n < 10 then 48 + n else 87 + n

/-- `hex.EncodeToString`: two lowercase hex digits per byte. -/
def hexEncode (bs : List Nat) : GoStr :=
  (bs.map (fun b => [hexDigit (b / 16), hexDigit (b % 16)])).flatten

/-- `hashVerifier.Read` driven to EOF.  The underlying body is a sequence
of chunks; each read tees the chunk into the hasher before returning, and
the read that reports `io.EOF` triggers the digest comparison, so the
digest always covers every consumed byte (this also covers a final read
returning data together with `io.EOF`).  `H` is the digest function
(`crypto/sha256` is an external primitive; the verifier logic is
independent of it).  The result is the consumed byte stream, or the
`BadDigest` error. -/
def hvReadAll (H : List Nat → List Nat) (expectedHex : GoStr) :
    List Nat → List (List Nat) → Except String (List Nat)
  | hashed, [] =>
    if hexEncode (H hashed) == expectedHex then .ok hashed else .error "BadDigest"
  | hashed, c :: cs => hvReadAll H expectedHex (hashed ++ c) cs

/-- Modelled from the spec: the s3 package HTTP PUT handler is code of
this repository that is not under `src/` (only `hash_verifier.go` and the
HTTP tests are present), so its commit ordering follows the spec text:
with an `X-Amz-Content-Sha256` header the body is streamed through the
verifier, and at EOF the hex digest must equal the header value,
otherwise `BadDigest` is returned as HTTP 400 with body `BadDigest`
before committing any metadata; on success the entry is upserted as
processed. -/
def putObjectModel (H : List Nat → List Nat) (shaHeader : Option GoStr)
    (chunks : List (List Nat)) (path : GoStr) (size now : Int) (t : Table) :
    (Nat × String) × Table :=
  let commit : (Nat × String) × Table :=
    match insertOp now [⟨path, size, now, false, 0, true⟩] t with
    | .ok u => ((200, ""), u)
    | .error _ => ((500, "InternalError"), t)
  match shaHeader with
  | none => commit
  | some expected =>
    match hvReadAll H expected [] chunks with
    | .error _ => ((400, "BadDigest"), t)
    | .ok _ => commit

/-! ## The authentication middleware (s3_auth.go lines 25-49) -/

/-- Outcome of `S3AuthMiddleware` for one request: the request reaches
the wrapped handler untagged (no access key configured), reaches it
tagged with the accepted scheme, or is rejected. -/
inductive AuthOutcome where
  | passthrough : AuthOutcome
  | pass (tag : String) : AuthOutcome
  | reject (status : Nat) (headerName headerValue body : String) : AuthOutcome
  deriving DecidableEq, Repr

/-- `S3AuthMiddleware`: when an access key is configured the four
validators are tried in order — presigned v2, presigned v4, header v2,
header v4 — and the first acceptance wins; if all fail the response is
401 with `WWW-Authenticate: AWS`.  With no access key configured the
wrapped handler is returned unconditionally.  The four booleans are the
validator verdicts on the incoming request (the validators themselves
wrap AWS signature crypto and are opaque collaborators here). -/
def s3AuthMiddleware (accessKeyConfigured v2p v4p v2h v4h : Bool) : AuthOutcome :=
  if !accessKeyConfigured then .passthrough
  else if v2p then .pass "presigned-v2"
  else if v4p then .pass "presigned-v4"
  else if v2h then .pass "auth-v2"
  else if v4h then .pass "auth-v4"
  else .reject 401 "WWW-Authenticate" "AWS" "Authorization failed"

/-- Whether an outcome reaches the wrapped handler. -/
def reachesHandler : AuthOutcome → Bool
  | .passthrough => true
  | .pass _ => true
  | .reject _ _ _ _ => false

end S3W

namespace S3W

/-! # Order and prefix lemmas -/

theorem ltStr_irrefl : ∀ a : GoStr, ltStr a a = false := by
  intro a
  induction a with
  | nil => rfl
  | cons x xs ih => simp [ltStr, ih]

theorem ltStr_asymm : ∀ a b : GoStr, ltStr a b = true → ltStr b a = false := by
  intro a
  induction a with
  | nil => intro b h; cases b <;> simp_all [ltStr]
  | cons x xs ih =>
    intro b h
    cases b with
    | nil => simp_all [ltStr]
    | cons y ys =>
      simp only [ltStr] at h ⊢
      rcases Nat.lt_trichotomy x y with hxy | hxy | hxy
      · simp [hxy, Nat.not_lt.mpr (Nat.le_of_lt hxy)]
      · subst hxy
        simp only [Nat.lt_irrefl, if_false] at h ⊢
        exact ih ys h
      · simp [hxy, Nat.not_lt.mpr (Nat.le_of_lt hxy)] at h

theorem ltStr_eq_of_not : ∀ a b : GoStr, ltStr a b = false → ltStr b a = false → a = b := by
  intro a
  induction a with
  | nil => intro b h _; cases b <;> simp_all [ltStr]
  | cons x xs ih =>
    intro b h h2
    cases b with
    | nil => simp_all [ltStr]
    | cons y ys =>
      simp only [ltStr] at h h2
      rcases Nat.lt_trichotomy x y with hxy | hxy | hxy
      · simp [hxy] at h
      · subst hxy
        simp only [Nat.lt_irrefl, if_false] at h h2
        rw [ih ys h h2]
      · simp [hxy] at h2

theorem ltStr_trans : ∀ a b c : GoStr, ltStr a b = true → ltStr b c = true →
    ltStr a c = true := by
  intro a
  induction a with
  | nil =>
    intro b c h h2
    cases b with
    | nil => simp [ltStr] at h
    | cons y ys => cases c with
      | nil => simp [ltStr] at h2
      | cons z zs => rfl
  | cons x xs ih =>
    intro b c h h2
    cases b with
    | nil => simp [ltStr] at h
    | cons y ys =>
      cases c with
      | nil => simp [ltStr] at h2
      | cons z zs =>
        simp only [ltStr] at h h2 ⊢
        rcases Nat.lt_trichotomy x y with hxy | hxy | hxy
        · rcases Nat.lt_trichotomy y z with hyz | hyz | hyz
          · simp [Nat.lt_trans hxy hyz]
          · subst hyz; simp [hxy]
          · simp [hyz, Nat.not_lt.mpr (Nat.le_of_lt hyz)] at h2
        · subst hxy
          simp only [Nat.lt_irrefl, if_false] at h
          rcases Nat.lt_trichotomy x z with hyz | hyz | hyz
          · simp [hyz]
          · subst hyz
            simp only [Nat.lt_irrefl, if_false] at h2 ⊢
            exact ih ys zs h h2
          · simp [hyz, Nat.not_lt.mpr (Nat.le_of_lt hyz)] at h2
        · simp [hxy, Nat.not_lt.mpr (Nat.le_of_lt hxy)] at h

theorem leStr_of_ltStr {a b : GoStr} (h : ltStr a b = true) : leStr a b = true := by
  simp [leStr, ltStr_asymm a b h]

theorem ltStr_of_leStr_ne {a b : GoStr} (h : leStr a b = true) (hne : a ≠ b) :
    ltStr a b = true := by
  simp only [leStr, Bool.not_eq_true', Bool.not_eq_false] at h
  cases hlt : ltStr a b with
  | true => rfl
  | false => exact absurd (ltStr_eq_of_not a b hlt h) hne

instance : IsTotal EntryInfo entLE := by
  constructor
  intro a b
  unfold entLE leStr
  cases h : ltStr b.path a.path with
  | false => left; simp
  | true => right; simp [ltStr_asymm _ _ h]

instance : IsTrans EntryInfo entLE := by
  constructor
  intro a b c hab hbc
  unfold entLE leStr at hab hbc ⊢
  simp only [Bool.not_eq_true', Bool.not_eq_false] at hab hbc ⊢
  cases hca : ltStr c.path a.path with
  | false => rfl
  | true =>
    cases hab2 : ltStr a.path b.path with
    | true => simpa [ltStr_trans _ _ _ hca hab2] using hbc
    | false =>
      rw [ltStr_eq_of_not _ _ hab2 hab] at hca
      rw [hca] at hbc
      exact hbc

/-- Strict row order by path. -/
def entLT (a b : EntryInfo) : Prop := ltStr a.path b.path = true

instance : IsAntisymm EntryInfo entLT := by
  constructor
  intro a b hab hba
  unfold entLT at hab hba
  rw [ltStr_asymm _ _ hab] at hba
  cases hba

theorem hasPrefixB_iff : ∀ p s : GoStr, hasPrefixB s p = true ↔ ∃ r, s = p ++ r := by
  intro p
  induction p with
  | nil => intro s; simp [hasPrefixB, List.isPrefixOf]
  | cons x xs ih =>
    intro s
    cases s with
    | nil =>
      simp only [hasPrefixB, List.isPrefixOf]
      constructor
      · intro h; cases h
      · rintro ⟨r, hr⟩; cases hr
    | cons y ys =>
      simp only [hasPrefixB, List.isPrefixOf, Bool.and_eq_true, beq_iff_eq] at ih ⊢
      constructor
      · rintro ⟨hxy, hp⟩
        obtain ⟨r, hr⟩ := (ih ys).mp hp
        exact ⟨r, by rw [hxy, hr]; rfl⟩
      · rintro ⟨r, hr⟩
        injection hr with h1 h2
        exact ⟨h1.symm, (ih ys).mpr ⟨r, h2⟩⟩

theorem hasPrefixB_refl (p : GoStr) : hasPrefixB p p = true :=
  (hasPrefixB_iff p p).mpr ⟨[], by simp⟩

theorem hasPrefixB_append (p r : GoStr) : hasPrefixB (p ++ r) p = true :=
  (hasPrefixB_iff p (p ++ r)).mpr ⟨r, rfl⟩

/-! # C1, C10: cacheDB.Delete -/

/-- C1 (counterexample): the claim says a directory-form delete always
succeeds and removes the whole subtree; but on the table holding the
directory `a/` and the file `a/x`, `Delete("a/")` matches two rows and
the Go code returns the `multiple entries deleted` error before
committing, leaving the table unchanged. -/
theorem C1_delete_subtree_counterexample :
    deleteOp pA [dirRow pA true, fileRow pAX 3 true] = .error "multiple entries deleted" := by
  rfl

/-- C1 (amended): delete(p) removes the matched rows (the subtree for a
path ending in `/`, the exact row otherwise) when at most one row
matches; any delete — directory-form as well as file-form — matching
more than one row fails with `multiple entries deleted` and leaves the
cache unchanged. -/
theorem C1_delete_amended (t : Table) (p : GoStr) (h : startsWithSlash p = false) :
    ((t.filter (deleteMatches p)).length ≤ 1 →
        deleteOp p t = .ok (t.filter (fun e => !(deleteMatches p e)))) ∧
      (1 < (t.filter (deleteMatches p)).length →
        deleteOp p t = .error "multiple entries deleted") := by
  constructor
  · intro hle
    unfold deleteOp
    simp only [h, Bool.false_eq_true, if_false]
    cases hn : (t.filter (deleteMatches p)).length with
    | zero =>
      have hall : ∀ e ∈ t, deleteMatches p e = false := by
        intro e he
        have hnil := List.length_eq_zero.mp hn
        simpa using List.filter_eq_nil.mp hnil e he
      have hself : t.filter (fun e => !(deleteMatches p e)) = t := by
        apply List.filter_eq_self.mpr
        intro e he
        simp [hall e he]
      simp [hn, hself]
    | succ n =>
      have hn0 : n = 0 := by omega
      subst hn0
      simp [hn]
  · intro hgt
    unfold deleteOp
    simp only [h, Bool.false_eq_true, if_false]
    have h0 : ((t.filter (deleteMatches p)).length == 0) = false := by
      simp only [beq_eq_false_iff_ne, ne_eq]
      omega
    simp only [h0, Bool.false_eq_true, if_false, if_pos hgt]

/-- Witness for C1: on the two-row table the amended theorem yields the
failure branch concretely. -/
theorem C1_delete_amended_witness :
    deleteOp pA [dirRow pA true, fileRow pAX 3 true] = .error "multiple entries deleted" :=
  (C1_delete_amended [dirRow pA true, fileRow pAX 3 true] pA (by decide)).2 (by decide)

/-- C10: deleting a path that matches no row returns success and leaves
the table unchanged (the `rowsAffected == 0` branch returns `nil`). -/
theorem C10_delete_noop (t : Table) (p : GoStr) (h : startsWithSlash p = false)
    (hnone : ∀ e ∈ t, deleteMatches p e = false) : deleteOp p t = .ok t := by
  unfold deleteOp
  simp only [h, Bool.false_eq_true, if_false]
  have hnil : t.filter (deleteMatches p) = [] := List.filter_eq_nil.mpr (by
    intro e he
    simp [hnone e he])
  simp [hnil]

/-- Witness for C10: deleting the absent path `n` from a nonempty table. -/
theorem C10_delete_noop_witness :
    deleteOp pN [dirRow pA true, fileRow pAX 3 true] = .ok [dirRow pA true, fileRow pAX 3 true] :=
  C10_delete_noop [dirRow pA true, fileRow pAX 3 true] pN (by decide) (by decide)

end S3W

namespace S3W

/-! # C3, C6: cacheDB.Insert -/

theorem insertLoop_cons_valid (now : Int) (o : EntryInfo) (os : List EntryInfo) (t : Table)
    (h : insertValid o = true) :
    insertLoop now (o :: os) t = insertLoop now os (upsert now o t) := by
  unfold insertValid at h
  simp only [Bool.and_eq_true, Bool.not_eq_true'] at h
  obtain ⟨h1, h2⟩ := h
  conv_lhs => rw [insertLoop]
  simp only [h1, Bool.false_eq_true, if_false]
  cases hd : o.isDir with
  | true => simp only [hd, if_true] at h2 ⊢; simp [h2]
  | false =>
    simp only [hd, Bool.false_eq_true, if_false] at h2 ⊢
    simp only [Bool.not_eq_true'] at h2
    simp [h2]

theorem insertLoop_cons_invalid (now : Int) (o : EntryInfo) (os : List EntryInfo) (t : Table)
    (h : insertValid o = false) :
    ∀ u, insertLoop now (o :: os) t ≠ .ok u := by
  intro u hu
  unfold insertValid at h
  unfold insertLoop at hu
  by_cases h1 : startsWithSlash o.path = true
  · simp [h1] at hu
  · simp only [Bool.not_eq_true] at h1
    simp only [h1, Bool.false_eq_true, if_false] at hu
    simp only [h1, Bool.not_false, Bool.true_and] at h
    cases hd : o.isDir with
    | true =>
      simp only [hd, if_true] at h hu
      simp [h] at hu
    | false =>
      simp only [hd, Bool.false_eq_true, if_false] at h hu
      have h2 : endsWithSlash o.path = true := by
        by_contra hc
        simp only [Bool.not_eq_true] at hc
        rw [hc] at h
        simp at h
      simp [h2] at hu

theorem insertLoop_ok_iff (now : Int) : ∀ (objs : List EntryInfo) (t : Table),
    (∃ u, insertLoop now objs t = .ok u) ↔ ∀ o ∈ objs, insertValid o = true := by
  intro objs
  induction objs with
  | nil => intro t; simp [insertLoop]
  | cons o os ih =>
    intro t
    by_cases hv : insertValid o = true
    · rw [insertLoop_cons_valid now o os t hv, ih (upsert now o t)]
      simp [hv]
    · simp only [Bool.not_eq_true] at hv
      constructor
      · rintro ⟨u, hu⟩
        exact absurd hu (insertLoop_cons_invalid now o os t hv u)
      · intro hall
        exact absurd (hall o (by simp)) (by simp [hv])

theorem insertOp_ok_iff (now : Int) (objs : List EntryInfo) (t : Table) :
    (∃ u, insertOp now objs t = .ok u) ↔ ∀ o ∈ objs, insertValid o = true := by
  unfold insertOp
  cases objs with
  | nil => simp
  | cons o os => simpa using insertLoop_ok_iff now (o :: os) t

/-- C3: `cacheDB.Insert` (i) succeeds exactly when every entry of the
batch has a well-formed path (no leading slash, trailing slash matching
`is_dir`) — on any invalid entry the transaction aborts with no change
(our `Except.error` result exposes no table, mirroring the rollback);
(ii) on a path conflict overwrites `size`, `is_dir` and `updated_at`,
keeps the maximum `last_modified` and the logical OR of `processed`;
(iii) inserts a fresh row verbatim (with `updated_at := now`) when the
path is new. -/
theorem C3_insert_upsert (now : Int) (objs : List EntryInfo) (t : Table) :
    ((∃ u, insertOp now objs t = .ok u) ↔ ∀ o ∈ objs, insertValid o = true) ∧
      (∀ x e, NodupPaths t → e ∈ t → e.path = x.path → insertValid x = true →
        insertOp now [x] t = .ok (t.map (fun f =>
          if f.path = x.path then
            ⟨x.path, x.size, max x.lastModified e.lastModified, x.isDir, now,
              e.processed || x.processed⟩
          else f))) ∧
      (∀ x, insertValid x = true → (∀ e ∈ t, e.path ≠ x.path) →
        insertOp now [x] t =
          .ok (t ++ [⟨x.path, x.size, x.lastModified, x.isDir, now, x.processed⟩])) := by
  refine ⟨insertOp_ok_iff now objs t, ?_, ?_⟩
  · intro x e hnd he hpath hv
    have hx : insertOp now [x] t = .ok (upsert now x t) := by
      unfold insertOp
      simp only [List.isEmpty_cons, Bool.false_eq_true, if_false]
      rw [insertLoop_cons_valid now x [] t hv]
      rfl
    rw [hx]
    congr 1
    unfold upsert
    have hany : t.any (fun f => f.path == x.path) = true := by
      refine List.any_eq_true.mpr ⟨e, he, ?_⟩
      simp [hpath]
    rw [if_pos hany]
    apply List.map_congr_left
    intro f hf
    by_cases hfp : f.path = x.path
    · have hfe : f = e := by
        apply List.inj_on_of_nodup_map hnd hf he
        rw [hfp, hpath]
      subst hfe
      simp [hfp, hpath]
    · simp [hfp, beq_eq_false_iff_ne, hfp]
  · intro x hv hfresh
    have hx : insertOp now [x] t = .ok (upsert now x t) := by
      unfold insertOp
      simp only [List.isEmpty_cons, Bool.false_eq_true, if_false]
      rw [insertLoop_cons_valid now x [] t hv]
      rfl
    rw [hx]
    congr 1
    unfold upsert
    have hany : t.any (fun f => f.path == x.path) = false := by
      refine List.any_eq_false.mpr ?_
      intro f hf
      simp [hfresh f hf]
    rw [if_neg (by simp [hany])]

/-- Witness for C3: upserting a file row over an existing row merges
`last_modified` and `processed` and overwrites the rest. -/
theorem C3_insert_upsert_witness :
    insertOp 9 [fileRow pBF 7 false] [⟨pBF, 3, 11, false, 2, true⟩] =
      .ok [⟨pBF, 7, 11, false, 9, true⟩] := by
  have h := (C3_insert_upsert 9 [fileRow pBF 7 false] [⟨pBF, 3, 11, false, 2, true⟩]).2.1
    (fileRow pBF 7 false) ⟨pBF, 3, 11, false, 2, true⟩ (by decide) (by decide) rfl (by decide)
  simpa using h

/-- C6 (counterexample): `cacheDB.Insert` accepts a file entry whose path
is the empty string and a directory entry of size 1024, so neither
non-emptiness of `path` nor `is_dir ⇒ size = 0` is an invariant of the
stored table. -/
theorem C6_invariant_counterexample :
    insertOp 5 [rEmptyPath, rFatDir] [] = .ok u0 ∧
      (∃ e ∈ u0, e.path = []) ∧ (∃ e ∈ u0, e.isDir = true ∧ e.size ≠ 0) := by
  refine ⟨by rfl, ?_, ?_⟩ <;> decide

theorem upsert_inv (now : Int) (o : EntryInfo) (t : Table)
    (ht : ∀ e ∈ t, entryInv e = true) (ho : insertValid o = true) :
    ∀ e ∈ upsert now o t, entryInv e = true := by
  intro e he
  unfold insertValid at ho
  simp only [Bool.and_eq_true, Bool.not_eq_true'] at ho
  obtain ⟨h1, h2⟩ := ho
  have hinv : entryInv ⟨o.path, o.size, o.lastModified, o.isDir, now, o.processed⟩ = true := by
    simp only [entryInv]
    cases hd : o.isDir with
    | true =>
      simp only [hd, if_true] at h2
      simp [h1, h2]
    | false =>
      simp only [hd, Bool.false_eq_true, if_false] at h2
      simp only [Bool.not_eq_true'] at h2
      simp [h1, h2]
  unfold upsert at he
  by_cases hany : t.any (fun f => f.path == o.path) = true
  · rw [if_pos hany] at he
    obtain ⟨f, hf, hfe⟩ := List.mem_map.mp he
    by_cases hfp : f.path == o.path
    · rw [if_pos hfp] at hfe
      subst hfe
      have hfo : f.path = o.path := by simpa using hfp
      simp only [entryInv] at hinv ⊢
      simpa [hfo] using hinv
    · rw [if_neg hfp] at hfe
      subst hfe
      exact ht f hf
  · rw [if_neg hany] at he
    rcases List.mem_append.mp he with hl | hr
    · exact ht e hl
    · simp only [List.mem_singleton] at hr
      subst hr
      exact hinv

theorem insertLoop_inv (now : Int) : ∀ (objs : List EntryInfo) (t u : Table),
    (∀ e ∈ t, entryInv e = true) → insertLoop now objs t = .ok u →
    ∀ e ∈ u, entryInv e = true := by
  intro objs
  induction objs with
  | nil =>
    intro t u ht hu
    cases hu
    exact ht
  | cons o os ih =>
    intro t u ht hu
    by_cases hv : insertValid o = true
    · rw [insertLoop_cons_valid now o os t hv] at hu
      exact ih (upsert now o t) u (upsert_inv now o t ht hv) hu
    · simp only [Bool.not_eq_true] at hv
      exact absurd hu (insertLoop_cons_invalid now o os t hv u)

/-- C6 (amended): the invariant the cache boundary actually maintains —
every stored path lacks a leading slash and carries a trailing slash
exactly when `is_dir` — is preserved by insert, delete, set-processed and
the dangling-file sweep. -/
theorem C6_invariant_amended (t : Table) (ht : ∀ e ∈ t, entryInv e = true) :
    (∀ now objs u, insertOp now objs t = .ok u → ∀ e ∈ u, entryInv e = true) ∧
      (∀ p u, deleteOp p t = .ok u → ∀ e ∈ u, entryInv e = true) ∧
      (∀ pfx r v n u, setProcessed pfx r v t = .ok (n, u) → ∀ e ∈ u, entryInv e = true) ∧
      (∀ pfx n u, deleteDanglingFiles pfx t = .ok (n, u) → ∀ e ∈ u, entryInv e = true) := by
  refine ⟨?_, ?_, ?_, ?_⟩
  · intro now objs u hu
    unfold insertOp at hu
    by_cases hobjs : objs.isEmpty = true
    · rw [if_pos hobjs] at hu
      cases hu
      exact ht
    · rw [if_neg hobjs] at hu
      exact insertLoop_inv now objs t u ht hu
  · intro p u hu
    unfold deleteOp at hu
    by_cases h1 : startsWithSlash p = true
    · simp [h1] at hu
    · simp only [h1] at hu
      simp only [Bool.false_eq_true, if_false] at hu
      by_cases h2 : ((t.filter (deleteMatches p)).length == 0) = true
      · rw [if_pos h2] at hu
        cases hu
        exact ht
      · rw [if_neg h2] at hu
        by_cases h3 : 1 < (t.filter (deleteMatches p)).length
        · simp [h3] at hu
        · rw [if_neg h3] at hu
          cases hu
          intro e he
          exact ht e (List.mem_of_mem_filter he)
  · intro pfx r v n u hu
    unfold setProcessed at hu
    by_cases h1 : startsWithSlash pfx = true
    · simp [h1] at hu
    · simp only [h1, Bool.false_eq_true, if_false, Except.ok.injEq, Prod.mk.injEq] at hu
      obtain ⟨-, hu⟩ := hu
      subst hu
      intro e he
      obtain ⟨f, hf, hfe⟩ := List.mem_map.mp he
      have hinv := ht f hf
      obtain ⟨fp, fs, fl, fd, fu, fpr⟩ := f
      split at hfe <;> split at hfe <;> subst hfe <;> simpa [entryInv] using hinv
  · intro pfx n u hu
    unfold deleteDanglingFiles at hu
    by_cases h1 : startsWithSlash pfx = true
    · simp [h1] at hu
    · simp only [h1, Bool.false_eq_true, if_false] at hu
      by_cases h2 : (!(endsWithSlash pfx)) = true
      · simp [h2] at hu
      · simp only [h2, Bool.false_eq_true, if_false, Except.ok.injEq, Prod.mk.injEq] at hu
        obtain ⟨-, hu⟩ := hu
        subst hu
        intro e he
        exact ht e (List.mem_of_mem_filter he)

/-- Witness for C6 (amended): the invariant holds after a concrete insert
followed by a concrete delete. -/
theorem C6_invariant_amended_witness :
    entryInv (⟨pB, 0, 0, true, 4, false⟩ : EntryInfo) = true ∧
      entryInv (⟨pBF, 3, 0, false, 4, true⟩ : EntryInfo) = true :=
  ⟨(C6_invariant_amended [] (by decide)).1 4 [dirRow pB false, fileRow pBF 3 true]
      [⟨pB, 0, 0, true, 4, false⟩, ⟨pBF, 3, 0, false, 4, true⟩] (by rfl)
      ⟨pB, 0, 0, true, 4, false⟩ (by decide),
    (C6_invariant_amended [] (by decide)).1 4 [dirRow pB false, fileRow pBF 3 true]
      [⟨pB, 0, 0, true, 4, false⟩, ⟨pBF, 3, 0, false, 4, true⟩] (by rfl)
      ⟨pBF, 3, 0, false, 4, true⟩ (by decide)⟩

end S3W

namespace S3W

/-! # Append and range lemmas for the list query -/

theorem ltStr_append_self : ∀ (s r : GoStr), ltStr s (s ++ r) = !r.isEmpty := by
  intro s
  induction s with
  | nil => intro r; cases r <;> simp [ltStr]
  | cons x xs ih => intro r; simp [ltStr, ih r]

theorem ltStr_append_cancel : ∀ (s a b : GoStr), ltStr (s ++ a) (s ++ b) = ltStr a b := by
  intro s
  induction s with
  | nil => intro a b; rfl
  | cons x xs ih => intro a b; simp [ltStr, ih a b]

theorem range_of_strict (pfx r : GoStr) (hb : ∀ b ∈ r, b < 255) (hr : r ≠ []) :
    ltStr pfx (pfx ++ r) = true ∧ ltStr (pfx ++ r) (pfx ++ [255]) = true := by
  constructor
  · rw [ltStr_append_self]
    simpa using hr
  · rw [ltStr_append_cancel]
    cases r with
    | nil => exact absurd rfl hr
    | cons x rest =>
      have hx : x < 255 := hb x (by simp)
      simp [ltStr, hx]

theorem strict_of_range : ∀ (pfx path : GoStr), (∀ b ∈ path, b < 255) →
    ltStr pfx path = true → ltStr path (pfx ++ [255]) = true →
    ∃ r, r ≠ [] ∧ path = pfx ++ r := by
  intro pfx
  induction pfx with
  | nil =>
    intro path _ h1 _
    refine ⟨path, ?_, rfl⟩
    cases path with
    | nil => simp [ltStr] at h1
    | cons y ys => simp
  | cons x xs ih =>
    intro path hb h1 h2
    cases path with
    | nil => simp [ltStr] at h1
    | cons y ys =>
      simp only [ltStr, List.cons_append] at h1 h2
      rcases Nat.lt_trichotomy x y with hxy | hxy | hxy
      · simp [hxy, Nat.not_lt.mpr (Nat.le_of_lt hxy)] at h2
      · subst hxy
        simp only [Nat.lt_irrefl, if_false] at h1 h2
        obtain ⟨r, hr, hys⟩ := ih ys (fun b hbm => hb b (by simp [hbm])) h1 h2
        exact ⟨r, hr, by rw [hys]; rfl⟩
      · simp [hxy, Nat.not_lt.mpr (Nat.le_of_lt hxy)] at h1

theorem rangeCond_eq_strict (pfx : GoStr) (e : EntryInfo) (hb : ∀ b ∈ e.path, b < 255)
    (hp : pfx ≠ []) :
    rangeCond pfx e = (hasPrefixB e.path pfx && !(e.path == pfx)) := by
  unfold rangeCond
  have hpe : pfx.isEmpty = false := by simpa using hp
  rw [hpe]
  simp only [Bool.false_or]
  cases hres : hasPrefixB e.path pfx && !(e.path == pfx) with
  | true =>
    simp only [Bool.and_eq_true, Bool.not_eq_true', beq_eq_false_iff_ne] at hres
    obtain ⟨hpre, hne⟩ := hres
    obtain ⟨r, hr⟩ := (hasPrefixB_iff pfx e.path).mp hpre
    have hrne : r ≠ [] := by
      intro h0
      rw [h0, List.append_nil] at hr
      exact hne hr
    have := range_of_strict pfx r (by intro b hbm; exact hb b (by simp [hr, hbm])) hrne
    rw [hr]
    simp [this.1, this.2]
  | false =>
    by_contra hc
    simp only [Bool.not_eq_false, Bool.and_eq_true] at hc
    obtain ⟨r, hrne, hreq⟩ := strict_of_range pfx e.path hb hc.1 hc.2
    rw [hreq] at hres
    simp only [hasPrefixB_append, Bool.true_and, Bool.not_eq_false, beq_iff_eq] at hres
    exact hrne (by simpa using hres.symm)

/-! # C2: cacheDB.ListDanglingDirs (code bug) -/

/-- C2 (divergence witness): on a table holding the processed directories
`b/` and `b/d/` and the file `b/d/x`, `ListDanglingDirs("b/", 10)`
returns BOTH directories even though each has a descendant, because the
query compares `path || '/'` (which for a slash-terminated directory path
contains `//`) against parent-directory strings that never contain `//`;
the spec says the result should be empty.  (Behaviour cross-checked
against SQLite itself.) -/
theorem C2_dangling_dirs_failing_input :
    listDanglingDirs pB 10 [dirRow pB true, dirRow pBD true, fileRow pBDX 5 true] =
      .ok [dirRow pBD true, dirRow pB true] := by
  rfl

/-! # C5: cacheDB.List with dirs_only (corrected) -/

/-- C5 (counterexample): dirs-only listing has no `is_dir` filter, so on
a table with the directory `b/` and the file `b/f` the call
`List("b/", "", true, 10)` returns the FILE `b/f` — not only directory
entries as the claim states.  (The repository's own `TestCacheList`
expects 5 dirs-only results for `bucket-a/`, which includes the file
`bucket-a/root-file.txt`.) -/
theorem C5_dirs_only_counterexample :
    listOp pB [] true 10 [dirRow pB true, fileRow pBF 3 true] =
      .ok ([fileRow pBF 3 true], false) := by
  rfl

theorem listOp_mem (pfx mkr : GoStr) (dirOnly : Bool) (limit : Nat) (t rows : Table)
    (tr : Bool) (h : listOp pfx mkr dirOnly limit t = .ok (rows, tr)) :
    ∀ e ∈ rows, e ∈ t ∧ listWhere pfx mkr dirOnly e = true := by
  unfold listOp at h
  split at h
  · cases h
  · split at h
    · cases h
    · split at h
      · cases h
      · simp only [Except.ok.injEq, Prod.mk.injEq] at h
        obtain ⟨hrows, -⟩ := h
        intro e he
        rw [← hrows] at he
        have h1 : e ∈ (sortAsc (t.filter (listWhere pfx mkr dirOnly))).take (limit + 1) :=
          List.mem_of_mem_take he
        have h2 : e ∈ sortAsc (t.filter (listWhere pfx mkr dirOnly)) :=
          List.mem_of_mem_take h1
        have h3 : e ∈ t.filter (listWhere pfx mkr dirOnly) := by
          unfold sortAsc at h2
          exact (List.mem_insertionSort entLE).mp h2
        exact ⟨List.mem_of_mem_filter h3, List.of_mem_filter h3⟩

/-- C5 (amended): every entry returned by a dirs-only listing is an
immediate child of the prefix — a strict descendant (for a non-empty
prefix) whose slash-stripped path has no `/` at or after the prefix — but
it may be a file or a directory: only the path shape is filtered, not
`is_dir`. -/
theorem C5_dirs_only_amended (pfx mkr : GoStr) (limit : Nat) (t rows : Table) (tr : Bool)
    (hb : ∀ e ∈ t, ∀ b ∈ e.path, b < 255)
    (h : listOp pfx mkr true limit t = .ok (rows, tr)) :
    ∀ e ∈ rows,
      (pfx ≠ [] → ∃ r, r ≠ [] ∧ e.path = pfx ++ r) ∧
        (hasPrefixB (rtrimSlash e.path) pfx = true →
          ((rtrimSlash e.path).drop pfx.length).contains slashByte = false) := by
  intro e he
  obtain ⟨het, hw⟩ := listOp_mem pfx mkr true limit t rows tr h e he
  unfold listWhere at hw
  simp only [if_true, Bool.and_eq_true] at hw
  obtain ⟨⟨hmk, hrange⟩, hdir⟩ := hw
  constructor
  · intro hp
    rw [rangeCond_eq_strict pfx e (hb e het) hp] at hrange
    simp only [Bool.and_eq_true, Bool.not_eq_true', beq_eq_false_iff_ne] at hrange
    obtain ⟨hpre, hne⟩ := hrange
    obtain ⟨r, hr⟩ := (hasPrefixB_iff pfx e.path).mp hpre
    refine ⟨r, ?_, hr⟩
    intro h0
    rw [h0, List.append_nil] at hr
    exact hne hr
  · intro hstrip
    unfold dirOnlyCond at hdir
    simp only [Bool.not_eq_true', Bool.and_eq_false_iff] at hdir
    rcases hdir with hdir | hdir
    · rw [hstrip] at hdir
      cases hdir
    · exact hdir

/-- Witness for C5 (amended): concrete dirs-only page on a two-row
table. -/
theorem C5_dirs_only_amended_witness :
    (pB ≠ [] → ∃ r, r ≠ [] ∧ (fileRow pBF 3 true).path = pB ++ r) ∧
      (hasPrefixB (rtrimSlash (fileRow pBF 3 true).path) pB = true →
        ((rtrimSlash (fileRow pBF 3 true).path).drop pB.length).contains slashByte = false) :=
  C5_dirs_only_amended pB [] 10 [dirRow pB true, fileRow pBF 3 true] [fileRow pBF 3 true]
    false (by decide) (by rfl) (fileRow pBF 3 true) (by decide)

end S3W

namespace S3W

/-! # C8: SHA-256 ingest verification -/

theorem hvReadAll_characterise (H : List Nat → List Nat) (expected : GoStr) :
    ∀ (chunks : List (List Nat)) (hashed : List Nat),
      hvReadAll H expected hashed chunks =
        if hexEncode (H (hashed ++ chunks.flatten)) == expected then
          .ok (hashed ++ chunks.flatten)
        else .error "BadDigest" := by
  intro chunks
  induction chunks with
  | nil => intro hashed; simp [hvReadAll]
  | cons c cs ih =>
    intro hashed
    simp only [hvReadAll, List.flatten_cons, ih (hashed ++ c), List.append_assoc]

/-- C8: reading the verifying reader to EOF yields the `BadDigest` error
exactly when the hex digest of the consumed bytes differs from the
expected header value (and otherwise yields exactly the consumed bytes);
in the PUT path a digest mismatch produces HTTP 400 with body `BadDigest`
and the cache is untouched, so no row exists for the key afterwards
unless it already did. -/
theorem C8_bad_digest (H : List Nat → List Nat) (expected : GoStr)
    (chunks : List (List Nat)) (path : GoStr) (size now : Int) (t : Table) :
    (hvReadAll H expected [] chunks = .error "BadDigest" ↔
        hexEncode (H chunks.flatten) ≠ expected) ∧
      (hexEncode (H chunks.flatten) = expected →
        hvReadAll H expected [] chunks = .ok chunks.flatten) ∧
      (hexEncode (H chunks.flatten) ≠ expected →
        putObjectModel H (some expected) chunks path size now t = ((400, "BadDigest"), t)) := by
  have hc := hvReadAll_characterise H expected chunks []
  simp only [List.nil_append] at hc
  refine ⟨?_, ?_, ?_⟩
  · rw [hc]
    by_cases h : hexEncode (H chunks.flatten) = expected
    · simp [h]
    · simp [h]
  · intro h
    rw [hc]
    simp [h]
  · intro h
    have hb : (hexEncode (H chunks.flatten) == expected) = false := by
      simpa using h
    unfold putObjectModel
    simp only [hc, hb, Bool.false_eq_true, if_false]

/-- Witness for C8: the identity digest function, body `hello` in two
chunks, and a wrong expected digest string. -/
theorem C8_bad_digest_witness :
    putObjectModel (fun bs => bs) (some [100, 101]) [[104, 101], [108, 108, 111]] pBF 5 1 [] =
      ((400, "BadDigest"), []) :=
  (C8_bad_digest (fun bs => bs) [100, 101] [[104, 101], [108, 108, 111]] pBF 5 1 []).2.2
    (by decide)

/-! # C9: authentication middleware dispatch -/

/-- C9: with an access key configured a request reaches the inner handler
iff one of the four verifications accepts, tried in the order presigned
v2, presigned v4, header v2, header v4 with the first acceptance winning;
when all four fail the response is 401 with `WWW-Authenticate: AWS`; with
no access key configured every request bypasses all checks. -/
theorem C9_auth_middleware : ∀ cfg a b c d : Bool,
    (reachesHandler (s3AuthMiddleware cfg a b c d) = (!cfg || a || b || c || d)) ∧
      (cfg = false → s3AuthMiddleware cfg a b c d = .passthrough) ∧
      (cfg = true → (a || b || c || d) = false →
        s3AuthMiddleware cfg a b c d =
          .reject 401 "WWW-Authenticate" "AWS" "Authorization failed") ∧
      (cfg = true → a = true → s3AuthMiddleware cfg a b c d = .pass "presigned-v2") ∧
      (cfg = true → a = false → b = true →
        s3AuthMiddleware cfg a b c d = .pass "presigned-v4") ∧
      (cfg = true → a = false → b = false → c = true →
        s3AuthMiddleware cfg a b c d = .pass "auth-v2") ∧
      (cfg = true → a = false → b = false → c = false → d = true →
        s3AuthMiddleware cfg a b c d = .pass "auth-v4") := by
  intro cfg a b c d
  cases cfg <;> cases a <;> cases b <;> cases c <;> cases d <;>
    simp [s3AuthMiddleware, reachesHandler]

/-- Witness for C9: a request accepted by the header-v2 validator alone
reaches the handler tagged `auth-v2`. -/
theorem C9_auth_middleware_witness :
    s3AuthMiddleware true false false true false = .pass "auth-v2" :=
  (C9_auth_middleware true false false true false).2.2.2.2.2.1 rfl rfl rfl rfl

end S3W

namespace S3W

/-! # C4: cacheDB.List for files and pagination -/

theorem sortAsc_length (t : Table) : (sortAsc t).length = t.length :=
  (List.perm_insertionSort entLE t).length_eq

theorem sortAsc_nodupPaths (t : Table) (hnd : NodupPaths t) : NodupPaths (sortAsc t) := by
  unfold NodupPaths at hnd ⊢
  exact (((List.perm_insertionSort entLE t).map (fun e => e.path)).nodup_iff).mpr hnd

theorem sortAsc_strict (t : Table) (hnd : NodupPaths t) : (sortAsc t).Pairwise entLT := by
  have hs : (sortAsc t).Pairwise entLE := List.sorted_insertionSort entLE t
  have hn := sortAsc_nodupPaths t hnd
  unfold NodupPaths at hn
  have hne : (sortAsc t).Pairwise (fun a b => a.path ≠ b.path) := List.pairwise_map.mp hn
  exact (hs.and hne).imp (fun h => ltStr_of_leStr_ne h.1 h.2)

theorem filterTable_nodupPaths (q : EntryInfo → Bool) (t : Table) (hnd : NodupPaths t) :
    NodupPaths (t.filter q) := by
  unfold NodupPaths at hnd ⊢
  exact List.Nodup.sublist ((List.filter_sublist t).map (fun e => e.path)) hnd

theorem sortAsc_filter_comm (q : EntryInfo → Bool) (t : Table) (hnd : NodupPaths t) :
    sortAsc (t.filter q) = (sortAsc t).filter q := by
  refine List.eq_of_perm_of_sorted (r := entLT) ?_ ?_ ?_
  · exact (List.perm_insertionSort entLE (t.filter q)).trans
      ((List.Perm.filter q (List.perm_insertionSort entLE t)).symm)
  · exact sortAsc_strict _ (filterTable_nodupPaths q t hnd)
  · exact List.Pairwise.filter q (sortAsc_strict t hnd)

theorem specFileMatch_split (pfx mkr : GoStr) (e : EntryInfo) :
    specFileMatch pfx mkr e = (specFileMatch pfx [] e && markerCond mkr e) := by
  unfold specFileMatch markerCond
  simp [Bool.and_assoc]

theorem listWhere_files_eq_spec (pfx mkr : GoStr) (e : EntryInfo)
    (hb : ∀ b ∈ e.path, b < 255) :
    listWhere pfx mkr false e = specFileMatch pfx mkr e := by
  unfold listWhere specFileMatch markerCond
  by_cases hp : pfx = []
  · subst hp
    unfold rangeCond
    simp only [List.isEmpty_nil, Bool.true_or, Bool.and_true, Bool.true_and,
      Bool.false_eq_true, if_false]
    first
      | rfl
      | rw [Bool.and_comm]
  · rw [rangeCond_eq_strict pfx e hb hp]
    have hpe : pfx.isEmpty = false := by simpa using hp
    simp only [hpe, Bool.false_or, Bool.false_eq_true, if_false]
    rw [Bool.and_comm, Bool.and_assoc]
    rw [Bool.and_comm (mkr.isEmpty || ltStr mkr e.path)]

theorem listOp_files_eq (pfx mkr : GoStr) (limit : Nat) (t : Table)
    (hb : ∀ e ∈ t, ∀ b ∈ e.path, b < 255)
    (hpfx1 : startsWithSlash pfx = false) (hpfx2 : endsWithSlash pfx = true)
    (hmkr : startsWithSlash mkr = false) :
    listOp pfx mkr false limit t =
      .ok ((sortAsc (t.filter (specFileMatch pfx mkr))).take limit,
        decide (limit < (t.filter (specFileMatch pfx mkr)).length)) := by
  unfold listOp
  simp only [hpfx1, hpfx2, hmkr, Bool.not_true, Bool.false_and, Bool.false_eq_true, if_false]
  have hfil : t.filter (listWhere pfx mkr false) = t.filter (specFileMatch pfx mkr) :=
    List.filter_congr (fun e he => listWhere_files_eq_spec pfx mkr e (hb e he))
  rw [hfil]
  have h1 : ((sortAsc (t.filter (specFileMatch pfx mkr))).take (limit + 1)).take limit =
      (sortAsc (t.filter (specFileMatch pfx mkr))).take limit := by
    rw [List.take_take]
    congr 1
    omega
  have h2 : (limit < ((sortAsc (t.filter (specFileMatch pfx mkr))).take (limit + 1)).length) ↔
      (limit < (t.filter (specFileMatch pfx mkr)).length) := by
    rw [List.length_take, sortAsc_length]
    omega
  rw [h1]
  have h3 : decide (limit <
        ((sortAsc (t.filter (specFileMatch pfx mkr))).take (limit + 1)).length) =
      decide (limit < (t.filter (specFileMatch pfx mkr)).length) :=
    decide_eq_decide.mpr h2
  rw [h3]

theorem specFileMatch_path_facts (pfx mkr : GoStr) (e : EntryInfo)
    (hpfx1 : startsWithSlash pfx = false) (hp : pfx ≠ [])
    (h : specFileMatch pfx mkr e = true) :
    e.path ≠ [] ∧ startsWithSlash e.path = false ∧ markerCond mkr e = true ∧
      e.isDir = false ∧ ∃ r, r ≠ [] ∧ e.path = pfx ++ r := by
  unfold specFileMatch at h
  have hpe : pfx.isEmpty = false := by simpa using hp
  simp only [hpe, Bool.false_or, Bool.and_eq_true, Bool.not_eq_true',
    beq_eq_false_iff_ne] at h
  obtain ⟨⟨hdir, hpre, hne⟩, hmk⟩ := h
  obtain ⟨r, hr⟩ := (hasPrefixB_iff pfx e.path).mp hpre
  have hrne : r ≠ [] := by
    intro h0
    rw [h0, List.append_nil] at hr
    exact hne hr
  refine ⟨?_, ?_, hmk, hdir, r, hrne, hr⟩
  · rw [hr]
    cases pfx with
    | nil => exact absurd rfl hp
    | cons x xs => simp
  · rw [hr]
    cases pfx with
    | nil => exact absurd rfl hp
    | cons x xs => simpa [startsWithSlash] using hpfx1

theorem markerCond_trans (mkr : GoStr) (lastRow e : EntryInfo)
    (hm : markerCond mkr lastRow = true) (hlt : ltStr lastRow.path e.path = true) :
    markerCond mkr e = true := by
  unfold markerCond at hm ⊢
  cases hmk : mkr.isEmpty with
  | true => simp [hmk]
  | false =>
    simp only [hmk, Bool.false_or] at hm ⊢
    exact ltStr_trans _ _ _ hm hlt

theorem filter_gt_getLast (L : Table) (hL : L.Pairwise entLT) (k : Nat)
    (lastRow : EntryInfo) (hlast : (L.take k).getLast? = some lastRow) :
    L.filter (fun e => ltStr lastRow.path e.path) = L.drop k := by
  have hdl : (L.take k).dropLast ++ [lastRow] = L.take k :=
    List.dropLast_append_getLast? lastRow (Option.mem_def.mpr hlast)
  have hp : List.Pairwise entLT (L.take k ++ L.drop k) := by
    rw [List.take_append_drop]
    exact hL
  rw [List.pairwise_append] at hp
  obtain ⟨hp1, hp2, hcross⟩ := hp
  have hlast_mem : lastRow ∈ L.take k := by
    rw [← hdl]
    simp
  have htake : ∀ x ∈ L.take k, ltStr lastRow.path x.path = false := by
    intro x hx
    rw [← hdl] at hx
    rcases List.mem_append.mp hx with hxi | hxl
    · have hpair : List.Pairwise entLT ((L.take k).dropLast ++ [lastRow]) := by
        rw [hdl]
        exact hp1
      rw [List.pairwise_append] at hpair
      have hxlt : entLT x lastRow := hpair.2.2 x hxi lastRow (by simp)
      exact ltStr_asymm _ _ hxlt
    · simp only [List.mem_singleton] at hxl
      subst hxl
      exact ltStr_irrefl _
  have hdrop : ∀ y ∈ L.drop k, ltStr lastRow.path y.path = true :=
    fun y hy => hcross lastRow hlast_mem y hy
  conv_lhs => rw [← List.take_append_drop k L]
  rw [List.filter_append]
  rw [List.filter_eq_nil_iff.mpr (by intro x hx; simp [htake x hx])]
  rw [List.filter_eq_self.mpr (by intro y hy; simp [hdrop y hy])]
  simp

theorem sortAsc_marker_split (pfx m : GoStr) (t : Table) (hnd : NodupPaths t) :
    sortAsc (t.filter (specFileMatch pfx m)) =
      ((sortAsc t).filter (specFileMatch pfx [])).filter (markerCond m) := by
  rw [sortAsc_filter_comm _ t hnd, List.filter_filter]
  apply List.filter_congr
  intro e he
  rw [specFileMatch_split]
  exact Bool.and_comm _ _

theorem listPages_go (pfx : GoStr) (k : Nat) (t : Table)
    (hnd : NodupPaths t) (hb : ∀ e ∈ t, ∀ b ∈ e.path, b < 255)
    (hpfx1 : startsWithSlash pfx = false) (hpfx2 : endsWithSlash pfx = true)
    (hk : 1 ≤ k) :
    ∀ (fuel : Nat) (mkr : GoStr), startsWithSlash mkr = false →
      (t.filter (specFileMatch pfx mkr)).length < fuel →
      listPages fuel pfx mkr k t = some (sortAsc (t.filter (specFileMatch pfx mkr))) := by
  have hpne : pfx ≠ [] := by
    intro h0
    rw [h0] at hpfx2
    cases hpfx2
  intro fuel
  induction fuel with
  | zero => intro mkr _ h; omega
  | succ fuel ih =>
    intro mkr hmkr hlen
    have hlist := listOp_files_eq pfx mkr k t hb hpfx1 hpfx2 hmkr
    simp only [listPages, hlist, decide_eq_true_eq]
    by_cases htr : k < (t.filter (specFileMatch pfx mkr)).length
    · -- truncated page: recurse from the last returned path
      rw [if_pos htr]
      have hMlen : (sortAsc (t.filter (specFileMatch pfx mkr))).length =
          (t.filter (specFileMatch pfx mkr)).length := sortAsc_length _
      have hrows_ne : (sortAsc (t.filter (specFileMatch pfx mkr))).take k ≠ [] := by
        intro h0
        have := congrArg List.length h0
        rw [List.length_take, hMlen] at this
        simp only [List.length_nil] at this
        omega
      obtain ⟨lastRow, hlast⟩ :=
        Option.isSome_iff_exists.mp (List.getLast?_isSome.mpr hrows_ne)
      rw [hlast]
      have hlast_mem_take : lastRow ∈ (sortAsc (t.filter (specFileMatch pfx mkr))).take k := by
        rw [← List.dropLast_append_getLast? lastRow (Option.mem_def.mpr hlast)]
        simp
      have hlast_mem : lastRow ∈ sortAsc (t.filter (specFileMatch pfx mkr)) :=
        List.mem_of_mem_take hlast_mem_take
      have hlast_match : specFileMatch pfx mkr lastRow = true := by
        have hmem : lastRow ∈ t.filter (specFileMatch pfx mkr) :=
          (List.mem_insertionSort entLE).mp hlast_mem
        exact List.of_mem_filter hmem
      obtain ⟨hlp_ne, hlp_nos, hlp_mk, -, -⟩ :=
        specFileMatch_path_facts pfx mkr lastRow hpfx1 hpne hlast_match
      -- the next page set is exactly the remainder after dropping this page
      have hnext : sortAsc (t.filter (specFileMatch pfx lastRow.path)) =
          (sortAsc (t.filter (specFileMatch pfx mkr))).drop k := by
        have hstrict : (sortAsc (t.filter (specFileMatch pfx mkr))).Pairwise entLT :=
          sortAsc_strict _ (filterTable_nodupPaths _ t hnd)
        have hdrop := filter_gt_getLast (sortAsc (t.filter (specFileMatch pfx mkr)))
          hstrict k lastRow hlast
        rw [← hdrop]
        simp only [sortAsc_marker_split pfx lastRow.path t hnd,
          sortAsc_marker_split pfx mkr t hnd, List.filter_filter]
        apply List.filter_congr
        intro e he
        have hemk : markerCond lastRow.path e = ltStr lastRow.path e.path := by
          unfold markerCond
          have h0 : lastRow.path.isEmpty = false := by simpa using hlp_ne
          simp [h0]
        rw [hemk]
        cases hlt : ltStr lastRow.path e.path with
        | false => simp
        | true => simp [markerCond_trans mkr lastRow e hlp_mk hlt]
      have hlen2 : (t.filter (specFileMatch pfx lastRow.path)).length < fuel := by
        have hsl : (sortAsc (t.filter (specFileMatch pfx lastRow.path))).length =
            (t.filter (specFileMatch pfx lastRow.path)).length := sortAsc_length _
        rw [← hsl, hnext, List.length_drop, hMlen]
        omega
      simp only [hlast, ih lastRow.path hlp_nos hlen2, hnext, List.take_append_drop]
    · -- final page: everything that remains
      rw [if_neg htr]
      have hfin : (sortAsc (t.filter (specFileMatch pfx mkr))).take k =
          sortAsc (t.filter (specFileMatch pfx mkr)) := by
        apply List.take_of_length_le
        rw [sortAsc_length]
        omega
      rw [hfin]

/-- C4: for a slash-terminated prefix, `List(prefix, marker, false, limit)`
returns exactly the first `limit` file entries — in ascending path order,
restricted to strict descendants of the prefix and (for a non-empty
marker) to paths strictly above the marker — with the truncation flag set
exactly when more than `limit` entries match (the query fetches `limit+1`
rows); consequently iterating with `marker := last returned path` and
page size `k` reassembles exactly the full matching set in pages of at
most `k`. -/
theorem C4_list_files_pagination (pfx mkr : GoStr) (limit k fuel : Nat) (t : Table)
    (hnd : NodupPaths t) (hb : ∀ e ∈ t, ∀ b ∈ e.path, b < 255)
    (hpfx1 : startsWithSlash pfx = false) (hpfx2 : endsWithSlash pfx = true)
    (hmkr : startsWithSlash mkr = false) (hk : 1 ≤ k) (hfuel : t.length < fuel) :
    listOp pfx mkr false limit t =
        .ok ((sortAsc (t.filter (specFileMatch pfx mkr))).take limit,
          decide (limit < (t.filter (specFileMatch pfx mkr)).length)) ∧
      ((sortAsc (t.filter (specFileMatch pfx mkr))).take limit).Pairwise entLT ∧
      ((sortAsc (t.filter (specFileMatch pfx mkr))).take limit).length ≤ limit ∧
      (∀ e ∈ (sortAsc (t.filter (specFileMatch pfx mkr))).take limit,
        e.isDir = false ∧ (mkr ≠ [] → ltStr mkr e.path = true) ∧
          ∃ r, r ≠ [] ∧ e.path = pfx ++ r) ∧
      listPages fuel pfx [] k t = some (sortAsc (t.filter (specFileMatch pfx []))) := by
  have hpne : pfx ≠ [] := by
    intro h0
    rw [h0] at hpfx2
    cases hpfx2
  refine ⟨listOp_files_eq pfx mkr limit t hb hpfx1 hpfx2 hmkr, ?_, ?_, ?_, ?_⟩
  · exact List.Pairwise.sublist (List.take_sublist _ _)
      (sortAsc_strict _ (filterTable_nodupPaths _ t hnd))
  · exact List.length_take_le _ _
  · intro e he
    have hmem : e ∈ t.filter (specFileMatch pfx mkr) :=
      (List.mem_insertionSort entLE).mp (List.mem_of_mem_take he)
    have hmatch := List.of_mem_filter hmem
    obtain ⟨-, -, hmk, hdir, hdesc⟩ :=
      specFileMatch_path_facts pfx mkr e hpfx1 hpne hmatch
    refine ⟨hdir, ?_, hdesc⟩
    intro hmne
    unfold markerCond at hmk
    have : mkr.isEmpty = false := by simpa using hmne
    simpa [this] using hmk
  · refine listPages_go pfx k t hnd hb hpfx1 hpfx2 hk fuel [] rfl ?_
    have := List.length_filter_le (specFileMatch pfx []) t
    omega

end S3W

namespace S3W

/-- Witness for C4: the spec's pagination example — files `b/a` to `b/d`
under the directory `b/` with page size 2: the first page is `b/a, b/b`
with the truncation flag set, and iterating reassembles all four files. -/
theorem C4_list_files_pagination_witness :
    listOp pB [] false 2
        [dirRow pB true, fileRow [98, 47, 97] 1 true, fileRow [98, 47, 98] 1 true,
          fileRow [98, 47, 99] 1 true, fileRow [98, 47, 100] 1 true] =
      .ok ([fileRow [98, 47, 97] 1 true, fileRow [98, 47, 98] 1 true], true) ∧
      listPages 6 pB [] 2
          [dirRow pB true, fileRow [98, 47, 97] 1 true, fileRow [98, 47, 98] 1 true,
            fileRow [98, 47, 99] 1 true, fileRow [98, 47, 100] 1 true] =
        some [fileRow [98, 47, 97] 1 true, fileRow [98, 47, 98] 1 true,
          fileRow [98, 47, 99] 1 true, fileRow [98, 47, 100] 1 true] := by
  have h := C4_list_files_pagination pB [] 2 2 6
    [dirRow pB true, fileRow [98, 47, 97] 1 true, fileRow [98, 47, 98] 1 true,
      fileRow [98, 47, 99] 1 true, fileRow [98, 47, 100] 1 true]
    (by decide) (by decide) (by decide) (by decide) (by decide) (by decide) (by decide)
  refine ⟨?_, ?_⟩
  · rw [h.1]
    rfl
  · rw [h.2.2.2.2]
    rfl

end S3W

namespace S3W

/-! # C7: path-shape and tree-resolution lemmas -/

theorem head?_append_left {α : Type} (l1 l2 : List α) (h : l1 ≠ []) :
    (l1 ++ l2).head? = l1.head? := by
  cases l1 with
  | nil => exact absurd rfl h
  | cons x xs => rfl

theorem getLast?_append_right {α : Type} (l1 l2 : List α) (h : l2 ≠ []) :
    (l1 ++ l2).getLast? = l2.getLast? := by
  rw [← List.head?_reverse, List.reverse_append,
    head?_append_left _ _ (by simpa using h), List.head?_reverse]

theorem mem_of_getLast?_eq {α : Type} (l : List α) (a : α) (h : l.getLast? = some a) :
    a ∈ l := by
  have hdl := List.dropLast_append_getLast? a (Option.mem_def.mpr h)
  rw [← hdl]
  simp

theorem endsWithSlash_concat (s : GoStr) : endsWithSlash (s ++ [slashByte]) = true := by
  unfold endsWithSlash
  rw [List.getLast?_concat]
  simp

theorem endsWithSlash_append (s r : GoStr) (h : r ≠ []) :
    endsWithSlash (s ++ r) = endsWithSlash r := by
  unfold endsWithSlash
  rw [getLast?_append_right s r h]

theorem startsWithSlash_append (p r : GoStr) (h : p ≠ []) :
    startsWithSlash (p ++ r) = startsWithSlash p := by
  unfold startsWithSlash
  rw [head?_append_left p r h]

theorem hasPrefixB_extend (d pfx r : GoStr) (h : hasPrefixB d pfx = true) :
    hasPrefixB (d ++ r) pfx = true := by
  obtain ⟨s, hs⟩ := (hasPrefixB_iff pfx d).mp h
  exact (hasPrefixB_iff pfx (d ++ r)).mpr ⟨s ++ r, by rw [hs, List.append_assoc]⟩

theorem wfName_facts (n : GoStr) (h : wfName n = true) :
    n ≠ [] ∧ (∀ b ∈ n, b ≠ slashByte) ∧ (∀ b ∈ n, b < 255) := by
  unfold wfName at h
  simp only [Bool.and_eq_true, List.all_eq_true] at h
  obtain ⟨⟨⟨h1, h2⟩, -⟩, -⟩ := h
  refine ⟨by simpa using h1, ?_, ?_⟩
  · intro b hb
    have := (h2 b hb).1.1
    simpa using this
  · intro b hb
    have := (h2 b hb).2
    simpa using this

theorem endsWithSlash_append_name (p n : GoStr) (hne : n ≠ [])
    (hns : ∀ b ∈ n, b ≠ slashByte) : endsWithSlash (p ++ n) = false := by
  rw [endsWithSlash_append p n hne]
  unfold endsWithSlash
  cases hg : n.getLast? with
  | none => simp
  | some a =>
    have ha := hns a (mem_of_getLast?_eq n a hg)
    simpa using ha

/-! ## parseSegs lemmas -/

theorem parseSegsAux_nil_inv (cur : GoStr) (segs : List GoStr)
    (h : parseSegsAux cur [] = some segs) : cur = [] ∧ segs = [] := by
  unfold parseSegsAux at h
  by_cases hc : cur.isEmpty = true
  · rw [if_pos hc] at h
    cases h
    exact ⟨by simpa using hc, rfl⟩
  · rw [if_neg hc] at h
    cases h

theorem parseSegsAux_ends : ∀ (rel cur : GoStr) (segs : List GoStr),
    parseSegsAux cur rel = some segs → rel = [] ∨ endsWithSlash rel = true := by
  intro rel
  induction rel with
  | nil => intro cur segs _; left; rfl
  | cons c rest ih =>
    intro cur segs h
    right
    unfold parseSegsAux at h
    by_cases hc : (c == slashByte) = true
    · rw [if_pos hc] at h
      by_cases hcur : cur.isEmpty = true
      · rw [if_pos hcur] at h
        cases h
      · rw [if_neg hcur] at h
        cases hrec : parseSegsAux [] rest with
        | none => rw [hrec] at h; cases h
        | some segs2 =>
          rcases ih [] segs2 hrec with hnil | hends
          · subst hnil
            have : c = slashByte := by simpa using hc
            subst this
            rfl
          · show ((c :: rest).getLast? == some slashByte) = true
            rw [show c :: rest = [c] ++ rest by rfl]
            rw [getLast?_append_right [c] rest (by rintro rfl; simp [endsWithSlash] at hends)]
            exact hends
    · rw [if_neg hc] at h
      rcases ih (c :: cur) segs h with hnil | hends
      · subst hnil
        exact absurd (parseSegsAux_nil_inv _ _ h).1 (by simp)
      · show ((c :: rest).getLast? == some slashByte) = true
        rw [show c :: rest = [c] ++ rest by rfl]
        rw [getLast?_append_right [c] rest (by rintro rfl; simp [endsWithSlash] at hends)]
        exact hends

theorem parseSegsAux_noslash : ∀ (n cur rest : GoStr), (∀ b ∈ n, b ≠ slashByte) →
    parseSegsAux cur (n ++ rest) = parseSegsAux (n.reverse ++ cur) rest := by
  intro n
  induction n with
  | nil => intro cur rest _; simp
  | cons c cstl ih =>
    intro cur rest hns
    have hc : (c == slashByte) = false := by
      simpa using hns c (by simp)
    have hstep : parseSegsAux cur ((c :: cstl) ++ rest) =
        parseSegsAux (c :: cur) (cstl ++ rest) := by
      show parseSegsAux cur (c :: (cstl ++ rest)) = _
      conv_lhs => rw [parseSegsAux]
      rw [if_neg (by simp [hc])]
    rw [hstep, ih (c :: cur) rest (fun b hb => hns b (by simp [hb]))]
    congr 1
    simp

theorem parseSegsAux_snoc : ∀ (rel cur : GoStr) (segs : List GoStr) (n : GoStr),
    parseSegsAux cur rel = some segs → n ≠ [] → (∀ b ∈ n, b ≠ slashByte) →
    parseSegsAux cur (rel ++ (n ++ [slashByte])) = some (segs ++ [n]) := by
  intro rel
  induction rel with
  | nil =>
    intro cur segs n h hne hns
    obtain ⟨hcur, hsegs⟩ := parseSegsAux_nil_inv cur segs h
    subst hcur
    subst hsegs
    rw [List.nil_append]
    rw [parseSegsAux_noslash n [] [slashByte] hns]
    unfold parseSegsAux
    rw [if_pos (by simp)]
    rw [if_neg (by simpa using hne)]
    simp [parseSegsAux]
  | cons c rest ih =>
    intro cur segs n h hne hns
    show parseSegsAux cur (c :: (rest ++ (n ++ [slashByte]))) = _
    unfold parseSegsAux at h ⊢
    by_cases hc : (c == slashByte) = true
    · rw [if_pos hc] at h ⊢
      by_cases hcur : cur.isEmpty = true
      · rw [if_pos hcur] at h
        cases h
      · rw [if_neg hcur] at h ⊢
        cases hrec : parseSegsAux [] rest with
        | none => rw [hrec] at h; cases h
        | some segs2 =>
          rw [hrec] at h
          cases h
          simp [ih [] segs2 n hrec hne hns]
    · rw [if_neg hc] at h ⊢
      exact ih (c :: cur) segs n h hne hns

/-! ## resolution lemmas -/

theorem resolveInList_eq : ∀ (cs : List (GoStr × FsNode)) (n : GoStr) (rest : List GoStr),
    resolveInList cs n rest =
      match lookupChild cs n with
      | some c => resolveDir c rest
      | none => none := by
  intro cs
  induction cs with
  | nil => intro n rest; rfl
  | cons hd tl ih =>
    intro n rest
    obtain ⟨m, c⟩ := hd
    show resolveInList ((m, c) :: tl) n rest = _
    unfold resolveInList lookupChild
    by_cases hm : (m == n) = true
    · rw [if_pos hm, if_pos hm]
    · rw [if_neg hm, if_neg hm]
      exact ih n rest

theorem lookupChild_of_mem (cs : List (GoStr × FsNode)) (n : GoStr) (sub : FsNode)
    (hmem : (n, sub) ∈ cs) (hnd : (cs.map Prod.fst).Nodup) :
    lookupChild cs n = some sub := by
  induction cs with
  | nil => cases hmem
  | cons hd tl ih =>
    obtain ⟨m, c⟩ := hd
    simp only [List.map_cons, List.nodup_cons] at hnd
    rcases List.mem_cons.mp hmem with heq | htl
    · injection heq with h1 h2
      subst h1
      subst h2
      unfold lookupChild
      rw [if_pos (by simp)]
    · unfold lookupChild
      by_cases hm : (m == n) = true
      · exfalso
        have : n ∈ tl.map Prod.fst := List.mem_map.mpr ⟨(n, sub), htl, rfl⟩
        have hmn : m = n := by simpa using hm
        exact hnd.1 (hmn ▸ this)
      · rw [if_neg hm]
        exact ih htl hnd.2

theorem resolveDir_snoc : ∀ (segs : List GoStr) (tr : FsNode) (cs : List (GoStr × FsNode)),
    resolveDir tr segs = some cs → ∀ (n : GoStr) (sub : FsNode),
    lookupChild cs n = some sub → resolveDir tr (segs ++ [n]) = resolveDir sub [] := by
  intro segs
  induction segs with
  | nil =>
    intro tr cs h n sub hl
    cases tr with
    | file sz mt => cases h
    | dir sz mt cs0 =>
      have hcs : cs0 = cs := by
        simpa [resolveDir] using h
      show resolveInList cs0 n [] = _
      rw [hcs, resolveInList_eq, hl]
  | cons s ss ih =>
    intro tr cs h n sub hl
    cases tr with
    | file sz mt => cases h
    | dir sz mt cs0 =>
      have h2 : resolveInList cs0 s ss = some cs := h
      rw [resolveInList_eq] at h2
      cases hlo : lookupChild cs0 s with
      | none => rw [hlo] at h2; cases h2
      | some c =>
        rw [hlo] at h2
        show resolveInList cs0 s (ss ++ [n]) = _
        rw [resolveInList_eq, hlo]
        exact ih c cs h2 n sub hl

/-! ## readDirM lemmas -/

theorem readDirM_some_facts (tree : FsNode) (pfx q : GoStr)
    (hpfx : endsWithSlash pfx = true) (cs : List (GoStr × FsNode))
    (h : readDirM tree pfx q = some cs) :
    hasPrefixB q pfx = true ∧ endsWithSlash q = true := by
  unfold readDirM at h
  by_cases hpre : hasPrefixB q pfx = true
  · refine ⟨hpre, ?_⟩
    rw [if_pos hpre] at h
    cases hps : parseSegs (q.drop pfx.length) with
    | none => rw [hps] at h; cases h
    | some segs =>
      obtain ⟨r, hr⟩ := (hasPrefixB_iff pfx q).mp hpre
      have hrel : q.drop pfx.length = r := by
        rw [hr, List.drop_left]
      rw [hrel] at hps
      rcases parseSegsAux_ends r [] segs hps with hnil | hends
      · subst hnil
        rw [hr, List.append_nil]
        exact hpfx
      · rw [hr, endsWithSlash_append pfx r (by rintro rfl; simp [endsWithSlash] at hends)]
        exact hends
  · rw [if_neg hpre] at h
    cases h

theorem readDirM_child (tree : FsNode) (pfx d n : GoStr) (cs : List (GoStr × FsNode))
    (sub : FsNode) (hrd : readDirM tree pfx d = some cs) (hmem : (n, sub) ∈ cs)
    (hnd : (cs.map Prod.fst).Nodup) (hn : wfName n = true) :
    readDirM tree pfx (d ++ n ++ [slashByte]) = resolveDir sub [] := by
  obtain ⟨hnne, hnns, -⟩ := wfName_facts n hn
  unfold readDirM at hrd
  by_cases hpre : hasPrefixB d pfx = true
  · rw [if_pos hpre] at hrd
    obtain ⟨r, hr⟩ := (hasPrefixB_iff pfx d).mp hpre
    have hrel : d.drop pfx.length = r := by rw [hr, List.drop_left]
    rw [hrel] at hrd
    cases hps : parseSegs r with
    | none => rw [hps] at hrd; cases hrd
    | some segs =>
      rw [hps] at hrd
      unfold readDirM
      rw [if_pos (hasPrefixB_extend (d ++ n) pfx [slashByte]
        (hasPrefixB_extend d pfx n hpre))]
      have hd2 : d ++ n ++ [slashByte] = pfx ++ (r ++ (n ++ [slashByte])) := by
        rw [hr]
        simp [List.append_assoc]
      rw [hd2, List.drop_left]
      have hsnoc := parseSegsAux_snoc r [] segs n hps hnne hnns
      unfold parseSegs
      rw [hsnoc]
      exact resolveDir_snoc segs tree cs hrd n sub (lookupChild_of_mem cs n sub hmem hnd)
  · rw [if_neg hpre] at hrd
    cases hrd

theorem readDirM_root (tree : FsNode) (pfx : GoStr) (s m : Int)
    (cs : List (GoStr × FsNode)) (h : tree = .dir s m cs) :
    readDirM tree pfx pfx = some cs := by
  unfold readDirM
  rw [if_pos (hasPrefixB_refl pfx), List.drop_length]
  subst h
  rfl

/-! ## last-segment uniqueness -/

theorem dropWhile_noslash_append (l r : GoStr) (hl : ∀ b ∈ l, b ≠ slashByte) :
    (l ++ r).dropWhile (fun c => !(c == slashByte)) =
      r.dropWhile (fun c => !(c == slashByte)) := by
  induction l with
  | nil => rfl
  | cons c cstl ih =>
    show ((c :: (cstl ++ r)).dropWhile _) = _
    rw [List.dropWhile_cons]
    rw [if_pos (by simpa using hl c (by simp))]
    exact ih (fun b hb => hl b (by simp [hb]))

theorem dropWhile_slash_head (p : GoStr) (hp : endsWithSlash p = true) :
    p.reverse.dropWhile (fun c => !(c == slashByte)) = p.reverse := by
  unfold endsWithSlash at hp
  cases hg : p.getLast? with
  | none => rw [hg] at hp; cases hp
  | some a =>
    rw [hg] at hp
    have ha : a = slashByte := by simpa using hp
    subst ha
    have : p.reverse.head? = some slashByte := by rw [List.head?_reverse]; exact hg
    cases hrev : p.reverse with
    | nil => rw [hrev] at this; cases this
    | cons x xs =>
      rw [hrev] at this
      injection this with hx
      subst hx
      rw [List.dropWhile_cons, if_neg (by simp)]

theorem parent_unique (p q n m : GoStr) (hp : endsWithSlash p = true)
    (hq : endsWithSlash q = true) (hn : ∀ b ∈ n, b ≠ slashByte)
    (hm : ∀ b ∈ m, b ≠ slashByte) (heq : p ++ n = q ++ m) : p = q ∧ n = m := by
  have h1 : (p ++ n).reverse.dropWhile (fun c => !(c == slashByte)) = p.reverse := by
    rw [List.reverse_append, dropWhile_noslash_append _ _ (by
      intro b hb; exact hn b (by simpa using hb)), dropWhile_slash_head p hp]
  have h2 : (q ++ m).reverse.dropWhile (fun c => !(c == slashByte)) = q.reverse := by
    rw [List.reverse_append, dropWhile_noslash_append _ _ (by
      intro b hb; exact hm b (by simpa using hb)), dropWhile_slash_head q hq]
  rw [heq] at h1
  rw [h1] at h2
  have hpq : p = q := by
    have := congrArg List.reverse h2
    simpa using this
  subst hpq
  exact ⟨rfl, List.append_cancel_left heq⟩

end S3W

namespace S3W

/-! # C7: row-tracking lemmas for the cache operations -/

theorem upsert_keep (now : Int) (o e : EntryInfo) (t : Table) (he : e ∈ t)
    (hne : e.path ≠ o.path) : e ∈ upsert now o t := by
  unfold upsert
  by_cases hany : (t.any (fun f => f.path == o.path)) = true
  · rw [if_pos hany]
    refine List.mem_map.mpr ⟨e, he, ?_⟩
    rw [if_neg (by simp [hne])]
  · rw [if_neg hany]
    exact List.mem_append.mpr (Or.inl he)

theorem upsert_origin (now : Int) (o : EntryInfo) (t : Table) (e2 : EntryInfo)
    (h : e2 ∈ upsert now o t) :
    (e2 ∈ t ∧ e2.path ≠ o.path) ∨
      (e2.path = o.path ∧ e2.isDir = o.isDir ∧ e2.size = o.size ∧
        ((∃ f ∈ t, f.path = o.path ∧ e2.processed = (f.processed || o.processed)) ∨
          e2.processed = o.processed)) := by
  unfold upsert at h
  by_cases hany : (t.any (fun f => f.path == o.path)) = true
  · rw [if_pos hany] at h
    obtain ⟨f, hf, hfe⟩ := List.mem_map.mp h
    by_cases hfp : (f.path == o.path) = true
    · rw [if_pos hfp] at hfe
      subst hfe
      have hfp2 : f.path = o.path := by simpa using hfp
      exact Or.inr ⟨hfp2, rfl, rfl, Or.inl ⟨f, hf, hfp2, rfl⟩⟩
    · rw [if_neg hfp] at hfe
      subst hfe
      exact Or.inl ⟨hf, by simpa using hfp⟩
  · rw [if_neg hany] at h
    rcases List.mem_append.mp h with hl | hr
    · refine Or.inl ⟨hl, ?_⟩
      intro hp
      have hall : ∀ x ∈ t, ¬x.path = o.path := by simpa using hany
      exact hall e2 hl hp
    · simp only [List.mem_singleton] at hr
      subst hr
      exact Or.inr ⟨rfl, rfl, rfl, Or.inr rfl⟩

theorem upsert_target (now : Int) (o : EntryInfo) (t : Table) :
    ∃ e2 ∈ upsert now o t, e2.path = o.path ∧ e2.isDir = o.isDir ∧ e2.size = o.size ∧
      (o.processed = true → e2.processed = true) := by
  unfold upsert
  by_cases hany : (t.any (fun f => f.path == o.path)) = true
  · rw [if_pos hany]
    obtain ⟨f, hf, hfp⟩ := List.any_eq_true.mp hany
    refine ⟨_, List.mem_map.mpr ⟨f, hf, rfl⟩, ?_⟩
    rw [if_pos hfp]
    have hfp2 : f.path = o.path := by simpa using hfp
    refine ⟨hfp2, rfl, rfl, ?_⟩
    intro hop
    simp [hop]
  · rw [if_neg hany]
    refine ⟨⟨o.path, o.size, o.lastModified, o.isDir, now, o.processed⟩,
      List.mem_append.mpr (Or.inr (by simp)), rfl, rfl, rfl, fun h => h⟩

theorem upsert_nodup (now : Int) (o : EntryInfo) (t : Table) (hnd : NodupPaths t) :
    NodupPaths (upsert now o t) := by
  unfold upsert
  unfold NodupPaths at hnd ⊢
  by_cases hany : (t.any (fun f => f.path == o.path)) = true
  · rw [if_pos hany]
    have hmap : (t.map (fun e =>
        if e.path == o.path then
          { path := e.path, size := o.size,
            lastModified := max o.lastModified e.lastModified,
            isDir := o.isDir, updatedAt := now,
            processed := e.processed || o.processed }
        else e)).map (fun e => e.path) = t.map (fun e => e.path) := by
      rw [List.map_map]
      apply List.map_congr_left
      intro f _
      by_cases hfp : f.path = o.path
      · simp [hfp]
      · simp [hfp]
    rw [hmap]
    exact hnd
  · rw [if_neg hany]
    rw [List.map_append]
    rw [List.nodup_append]
    refine ⟨hnd, by simp, ?_⟩
    intro q hq
    simp only [List.map_cons, List.map_nil, List.mem_singleton]
    intro hq2
    subst hq2
    obtain ⟨f, hf, hfp⟩ := List.mem_map.mp hq
    have hall : ∀ x ∈ t, ¬x.path = o.path := by simpa using hany
    exact hall f hf hfp

theorem insertLoop_keep (now : Int) : ∀ (objs : List EntryInfo) (t t1 : Table),
    insertLoop now objs t = .ok t1 → ∀ e ∈ t, (∀ o ∈ objs, o.path ≠ e.path) → e ∈ t1 := by
  intro objs
  induction objs with
  | nil =>
    intro t t1 h e he _
    cases h
    exact he
  | cons o os ih =>
    intro t t1 h e he hne
    by_cases hv : insertValid o = true
    · rw [insertLoop_cons_valid now o os t hv] at h
      exact ih _ _ h e (upsert_keep now o e t he (fun hp => hne o (by simp) hp.symm))
        (fun o2 ho2 => hne o2 (by simp [ho2]))
    · exact absurd h (insertLoop_cons_invalid now o os t (by simpa using hv) t1)

theorem insertOp_keep (now : Int) (objs : List EntryInfo) (t t1 : Table)
    (h : insertOp now objs t = .ok t1) (e : EntryInfo) (he : e ∈ t)
    (hne : ∀ o ∈ objs, o.path ≠ e.path) : e ∈ t1 := by
  unfold insertOp at h
  by_cases hobjs : objs.isEmpty = true
  · rw [if_pos hobjs] at h
    cases h
    exact he
  · rw [if_neg hobjs] at h
    exact insertLoop_keep now objs t t1 h e he hne

theorem insertOp_nodup (now : Int) (objs : List EntryInfo) (t t1 : Table)
    (h : insertOp now objs t = .ok t1) (hnd : NodupPaths t) : NodupPaths t1 := by
  unfold insertOp at h
  by_cases hobjs : objs.isEmpty = true
  · rw [if_pos hobjs] at h
    cases h
    exact hnd
  · rw [if_neg hobjs] at h
    clear hobjs
    induction objs generalizing t with
    | nil =>
      cases h
      exact hnd
    | cons o os ih =>
      by_cases hv : insertValid o = true
      · rw [insertLoop_cons_valid now o os t hv] at h
        exact ih _ h (upsert_nodup now o t hnd)
      · exact absurd h (insertLoop_cons_invalid now o os t (by simpa using hv) t1)

theorem insertOp_processed_origin (now : Int) (objs : List EntryInfo) (t t1 : Table)
    (h : insertOp now objs t = .ok t1) (e2 : EntryInfo) (he2 : e2 ∈ t1)
    (hp : e2.processed = true) :
    (∃ f ∈ t, f.path = e2.path ∧ f.processed = true) ∨
      (∃ o ∈ objs, o.path = e2.path ∧ o.processed = true) := by
  unfold insertOp at h
  by_cases hobjs : objs.isEmpty = true
  · rw [if_pos hobjs] at h
    cases h
    exact Or.inl ⟨e2, he2, rfl, hp⟩
  · rw [if_neg hobjs] at h
    clear hobjs
    induction objs generalizing t with
    | nil =>
      cases h
      exact Or.inl ⟨e2, he2, rfl, hp⟩
    | cons o os ih =>
      by_cases hv : insertValid o = true
      · rw [insertLoop_cons_valid now o os t hv] at h
        rcases ih _ h with ⟨f, hf, hfp, hfproc⟩ | ⟨o2, ho2, ho2p, ho2proc⟩
        · rcases upsert_origin now o t f hf with ⟨hft, -⟩ | ⟨hfo, -, -, hprov⟩
          · exact Or.inl ⟨f, hft, hfp, hfproc⟩
          · rcases hprov with ⟨g, hg, hgp, hgproc⟩ | hfo2
            · rw [hfproc] at hgproc
              rcases Bool.or_eq_true_iff.mp hgproc.symm with hgt | hot
              · refine Or.inl ⟨g, hg, ?_, hgt⟩
                rw [hgp, ← hfo, hfp]
              · refine Or.inr ⟨o, by simp, ?_, hot⟩
                rw [← hfo, hfp]
            · refine Or.inr ⟨o, by simp, ?_, ?_⟩
              · rw [← hfo, hfp]
              · rw [← hfo2, hfproc]
        · exact Or.inr ⟨o2, by simp [ho2], ho2p, ho2proc⟩
      · exact absurd h (insertLoop_cons_invalid now o os t (by simpa using hv) t1)

theorem insertOp_covers (now : Int) (objs : List EntryInfo) (t t1 : Table)
    (h : insertOp now objs t = .ok t1) (hnd : (objs.map (fun o => o.path)).Nodup) :
    ∀ o ∈ objs, ∃ e2 ∈ t1, e2.path = o.path ∧ e2.isDir = o.isDir ∧ e2.size = o.size ∧
      (o.processed = true → e2.processed = true) := by
  unfold insertOp at h
  by_cases hobjs : objs.isEmpty = true
  · intro o ho
    rw [List.isEmpty_iff] at hobjs
    subst hobjs
    cases ho
  · rw [if_neg hobjs] at h
    clear hobjs
    induction objs generalizing t with
    | nil =>
      intro o ho
      cases ho
    | cons o0 os ih =>
      intro o ho
      by_cases hv : insertValid o0 = true
      · rw [insertLoop_cons_valid now o0 os t hv] at h
        simp only [List.map_cons, List.nodup_cons] at hnd
        rcases List.mem_cons.mp ho with heq | hos
        · subst heq
          obtain ⟨e2, he2, he2p, he2d, he2s, he2proc⟩ := upsert_target now o t
          refine ⟨e2, ?_, he2p, he2d, he2s, he2proc⟩
          refine insertLoop_keep now os _ _ h e2 he2 ?_
          intro o2 ho2 hp2
          exact hnd.1 (by
            rw [← he2p, ← hp2]
            exact List.mem_map.mpr ⟨o2, ho2, rfl⟩)
        · exact ih _ h hnd.2 o hos
      · exact absurd h (insertLoop_cons_invalid now o0 os t (by simpa using hv) t1)

end S3W

namespace S3W

/-! # C7: setProcessed row lemmas and batch path distinctness -/

theorem nodupPaths_map_pathPreserving (g : EntryInfo → EntryInfo)
    (hg : ∀ e, (g e).path = e.path) (t : Table) (hnd : NodupPaths t) :
    NodupPaths (t.map g) := by
  unfold NodupPaths at hnd ⊢
  rw [List.map_map]
  have hfun : ((fun e => e.path) ∘ g) = fun (e : EntryInfo) => e.path :=
    funext (fun e => hg e)
  rw [hfun]
  exact hnd

theorem setProcessed_ok_starts (p : GoStr) (r v : Bool) (t : Table) (res : Nat × Table)
    (h : setProcessed p r v t = .ok res) : startsWithSlash p = false := by
  unfold setProcessed at h
  by_cases hs : startsWithSlash p = true
  · rw [if_pos hs] at h
    cases h
  · simpa using hs

theorem setProcessed_single_rows (p : GoStr) (t t2 : Table) (k : Nat)
    (h : setProcessed p false true t = .ok (k, t2)) :
    (∀ e2 ∈ t2, ∃ e ∈ t, e2.path = e.path ∧ e2.isDir = e.isDir ∧ e2.size = e.size ∧
        (e2.processed = e.processed ∨ (e2.path = p ∧ e2.processed = true))) ∧
      (∀ e ∈ t, ∃ e2 ∈ t2, e2.path = e.path ∧ e2.isDir = e.isDir ∧ e2.size = e.size ∧
        (e.processed = true → e2.processed = true) ∧ (e.path = p → e2.processed = true)) ∧
      (NodupPaths t → NodupPaths t2) := by
  have hs := setProcessed_ok_starts p false true t (k, t2) h
  unfold setProcessed at h
  rw [if_neg (by simp [hs])] at h
  simp only [Bool.and_false, Bool.false_eq_true, if_false, Except.ok.injEq,
    Prod.mk.injEq] at h
  obtain ⟨-, ht2⟩ := h
  refine ⟨?_, ?_, ?_⟩
  · intro e2 he2
    rw [← ht2] at he2
    obtain ⟨e, he, heq⟩ := List.mem_map.mp he2
    by_cases hcond : (e.path == p && !(e.processed == true)) = true
    · rw [if_pos hcond] at heq
      subst heq
      simp only [Bool.and_eq_true, beq_iff_eq] at hcond
      exact ⟨e, he, rfl, rfl, rfl, Or.inr ⟨hcond.1, rfl⟩⟩
    · rw [if_neg hcond] at heq
      subst heq
      exact ⟨e, he, rfl, rfl, rfl, Or.inl rfl⟩
  · intro e he
    refine ⟨_, by rw [← ht2]; exact List.mem_map.mpr ⟨e, he, rfl⟩, ?_⟩
    by_cases hcond : (e.path == p && !(e.processed == true)) = true
    · rw [if_pos hcond]
      exact ⟨rfl, rfl, rfl, fun _ => rfl, fun _ => rfl⟩
    · rw [if_neg hcond]
      refine ⟨rfl, rfl, rfl, fun hh => hh, ?_⟩
      intro hep
      simp only [Bool.and_eq_true, beq_iff_eq, Bool.not_eq_true', beq_eq_false_iff_ne,
        not_and, ne_eq, not_not] at hcond
      exact hcond hep
  · intro hnd
    rw [← ht2]
    refine nodupPaths_map_pathPreserving _ ?_ t hnd
    intro e
    split <;> rfl

theorem FileRowAt_setP (p : GoStr) (t t2 : Table) (k : Nat)
    (h : setProcessed p false true t = .ok (k, t2)) (q : GoStr) (sz : Int)
    (hf : FileRowAt t q sz) : FileRowAt t2 q sz := by
  obtain ⟨e, he, hep, hes, hed, heproc⟩ := hf
  obtain ⟨e2, he2, h1, h2, h3, h4, -⟩ := (setProcessed_single_rows p t t2 k h).2.1 e he
  exact ⟨e2, he2, by rw [h1, hep], by rw [h3, hes], by rw [h2, hed], h4 heproc⟩

theorem DirRowAt_setP (p : GoStr) (t t2 : Table) (k : Nat)
    (h : setProcessed p false true t = .ok (k, t2)) (q : GoStr)
    (hf : DirRowAt t q) : DirRowAt t2 q := by
  obtain ⟨e, he, hep, hed⟩ := hf
  obtain ⟨e2, he2, h1, h2, -, -, -⟩ := (setProcessed_single_rows p t t2 k h).2.1 e he
  exact ⟨e2, he2, by rw [h1, hep], by rw [h2, hed]⟩

theorem FileRowAt_insert (now : Int) (objs : List EntryInfo) (t t1 : Table)
    (h : insertOp now objs t = .ok t1) (q : GoStr) (sz : Int)
    (hne : ∀ o ∈ objs, o.path ≠ q) (hf : FileRowAt t q sz) : FileRowAt t1 q sz := by
  obtain ⟨e, he, hep, hes, hed, heproc⟩ := hf
  exact ⟨e, insertOp_keep now objs t t1 h e he (fun o ho => by rw [hep]; exact hne o ho),
    hep, hes, hed, heproc⟩

theorem DirRowAt_insert (now : Int) (objs : List EntryInfo) (t t1 : Table)
    (h : insertOp now objs t = .ok t1) (q : GoStr)
    (hne : ∀ o ∈ objs, o.path ≠ q) (hf : DirRowAt t q) : DirRowAt t1 q := by
  obtain ⟨e, he, hep, hed⟩ := hf
  exact ⟨e, insertOp_keep now objs t t1 h e he (fun o ho => by rw [hep]; exact hne o ho),
    hep, hed⟩

theorem joinChild_slash (p n : GoStr) (hps : endsWithSlash p = true) :
    joinChild p n = p ++ n := by
  unfold joinChild
  rw [if_pos hps]

theorem childEntry_path_ne (p : GoStr) (hps : endsWithSlash p = true)
    (c1 c2 : GoStr × FsNode) (h1 : wfName c1.1 = true) (h2 : wfName c2.1 = true)
    (hne : c1.1 ≠ c2.1) : (childEntry p c1).path ≠ (childEntry p c2).path := by
  obtain ⟨-, hns1, -⟩ := wfName_facts c1.1 h1
  obtain ⟨-, hns2, -⟩ := wfName_facts c2.1 h2
  obtain ⟨n1, d1⟩ := c1
  obtain ⟨n2, d2⟩ := c2
  cases d1 with
  | file s1 m1 =>
    cases d2 with
    | file s2 m2 =>
      show joinChild p n1 ≠ joinChild p n2
      rw [joinChild_slash p n1 hps, joinChild_slash p n2 hps]
      intro hc
      exact hne (List.append_cancel_left hc)
    | dir s2 m2 ds2 =>
      show joinChild p n1 ≠ joinChild p n2 ++ [slashByte]
      rw [joinChild_slash p n1 hps, joinChild_slash p n2 hps]
      intro hc
      have h47 : slashByte ∈ n1 := by
        rw [List.append_assoc] at hc
        have := List.append_cancel_left hc
        rw [this]
        simp
      exact hns1 slashByte h47 rfl
  | dir s1 m1 ds1 =>
    cases d2 with
    | file s2 m2 =>
      show joinChild p n1 ++ [slashByte] ≠ joinChild p n2
      rw [joinChild_slash p n1 hps, joinChild_slash p n2 hps]
      intro hc
      have h47 : slashByte ∈ n2 := by
        rw [List.append_assoc] at hc
        have := List.append_cancel_left hc
        rw [← this]
        simp
      exact hns2 slashByte h47 rfl
    | dir s2 m2 ds2 =>
      show joinChild p n1 ++ [slashByte] ≠ joinChild p n2 ++ [slashByte]
      rw [joinChild_slash p n1 hps, joinChild_slash p n2 hps]
      intro hc
      rw [List.append_assoc, List.append_assoc] at hc
      have hcc := List.append_cancel_left hc
      have h2c : n1 = n2 := by
        have hdl := congrArg List.dropLast hcc
        simpa [List.dropLast_concat] using hdl
      exact hne h2c

theorem batch_paths_nodup (p : GoStr) (cs : List (GoStr × FsNode))
    (hps : endsWithSlash p = true) (hnames : (cs.map Prod.fst).Nodup)
    (hwf : ∀ c ∈ cs, wfName c.1 = true) :
    ((cs.map (childEntry p)).map (fun o => o.path)).Nodup := by
  rw [List.map_map]
  have hpw : cs.Pairwise (fun a b => a.1 ≠ b.1) := List.pairwise_map.mp hnames
  have hpw2 : cs.Pairwise (fun a b =>
      ((fun c => ((childEntry p c).path)) a) ≠ ((fun c => ((childEntry p c).path)) b)) := by
    refine List.Pairwise.imp_of_mem ?_ hpw
    intro a b ha hb hab
    exact childEntry_path_ne p hps a b (hwf a ha) (hwf b hb) hab
  exact List.pairwise_map.mpr hpw2

end S3W

namespace S3W

/-! # C7: tree well-formedness propagation and covered-row transport -/

theorem lookupChild_mem : ∀ (cs : List (GoStr × FsNode)) (n : GoStr) (c : FsNode),
    lookupChild cs n = some c → (n, c) ∈ cs := by
  intro cs
  induction cs with
  | nil => intro n c h; cases h
  | cons hd tl ih =>
    intro n c h
    obtain ⟨m, c0⟩ := hd
    unfold lookupChild at h
    by_cases hm : (m == n) = true
    · rw [if_pos hm] at h
      injection h with h2
      subst h2
      have : m = n := by simpa using hm
      subst this
      exact List.mem_cons_self _ _
    · rw [if_neg hm] at h
      exact List.mem_cons_of_mem _ (ih n c h)

theorem WfTree_resolve : ∀ (segs : List GoStr) (tr : FsNode) (cs : List (GoStr × FsNode)),
    WfTree tr → resolveDir tr segs = some cs →
    (cs.map Prod.fst).Nodup ∧ (∀ c ∈ cs, wfName c.1 = true) ∧ (∀ c ∈ cs, WfTree c.2) := by
  intro segs
  induction segs with
  | nil =>
    intro tr cs hw h
    cases tr with
    | file sz mt => cases h
    | dir sz mt cs0 =>
      have hcs : cs0 = cs := by simpa [resolveDir] using h
      subst hcs
      cases hw with
      | dir _ _ _ hnd hwf hsub => exact ⟨hnd, hwf, hsub⟩
  | cons s ss ih =>
    intro tr cs hw h
    cases tr with
    | file sz mt => cases h
    | dir sz mt cs0 =>
      have h2 : resolveInList cs0 s ss = some cs := h
      rw [resolveInList_eq] at h2
      cases hlo : lookupChild cs0 s with
      | none => rw [hlo] at h2; cases h2
      | some c =>
        rw [hlo] at h2
        have hmem := lookupChild_mem cs0 s c hlo
        cases hw with
        | dir _ _ _ hnd hwf hsub => exact ih c cs (hsub (s, c) hmem) h2

theorem WfTree_readDir (tree : FsNode) (pfx q : GoStr) (cs : List (GoStr × FsNode))
    (hw : WfTree tree) (h : readDirM tree pfx q = some cs) :
    (cs.map Prod.fst).Nodup ∧ (∀ c ∈ cs, wfName c.1 = true) ∧ (∀ c ∈ cs, WfTree c.2) := by
  unfold readDirM at h
  by_cases hpre : hasPrefixB q pfx = true
  · rw [if_pos hpre] at h
    cases hps : parseSegs (q.drop pfx.length) with
    | none => rw [hps] at h; cases h
    | some segs =>
      rw [hps] at h
      exact WfTree_resolve segs tree cs hw h
  · rw [if_neg hpre] at h
    cases h

theorem pfx_shape (bucket : GoStr) (hb : wfName bucket = true) :
    startsWithSlash (bucket ++ [slashByte]) = false ∧
      endsWithSlash (bucket ++ [slashByte]) = true ∧ bucket ++ [slashByte] ≠ [] := by
  obtain ⟨hne, hns, -⟩ := wfName_facts bucket hb
  refine ⟨?_, endsWithSlash_concat bucket, by simp⟩
  cases bucket with
  | nil => exact absurd rfl hne
  | cons b bs =>
    rw [startsWithSlash_append _ _ (by simp)]
    have hb2 : b ≠ slashByte := hns b (by simp)
    simpa [startsWithSlash] using hb2

theorem under_pfx_no_leading_slash (pfx q : GoStr) (hp : startsWithSlash pfx = false)
    (hpne : pfx ≠ []) (h : hasPrefixB q pfx = true) : startsWithSlash q = false := by
  obtain ⟨r, hr⟩ := (hasPrefixB_iff pfx q).mp h
  rw [hr, startsWithSlash_append pfx r hpne]
  exact hp

theorem childEntry_path_length (p : GoStr) (hps : endsWithSlash p = true)
    (c : GoStr × FsNode) (hw : wfName c.1 = true) :
    p.length < (childEntry p c).path.length := by
  obtain ⟨hne, -, -⟩ := wfName_facts c.1 hw
  have hlen : 1 ≤ c.1.length := by
    cases hc : c.1 with
    | nil => exact absurd hc hne
    | cons x xs => simp
  obtain ⟨cn, cnode⟩ := c
  cases cnode with
  | file sz mt =>
    show p.length < (joinChild p cn).length
    rw [joinChild_slash p cn hps]
    simp only [List.length_append]
    simp only at hlen
    omega
  | dir sz mt ds =>
    show p.length < (joinChild p cn ++ [slashByte]).length
    rw [joinChild_slash p cn hps]
    simp only [List.length_append, List.length_cons, List.length_nil]
    simp only at hlen
    omega

theorem ChildCovered_setP (p : GoStr) (t t2 : Table) (k : Nat)
    (h : setProcessed p false true t = .ok (k, t2)) (q : GoStr) (c : GoStr × FsNode)
    (hc : ChildCovered t q c) : ChildCovered t2 q c := by
  obtain ⟨cn, cnode⟩ := c
  cases cnode with
  | file sz mt => exact FileRowAt_setP p t t2 k h _ sz hc
  | dir sz mt ds => exact DirRowAt_setP p t t2 k h _ hc

theorem ChildCovered_insert (now : Int) (objs : List EntryInfo) (t t1 : Table)
    (h : insertOp now objs t = .ok t1) (q : GoStr) (c : GoStr × FsNode)
    (hne : ∀ o ∈ objs, o.path ≠ joinChild q c.1 ∧ o.path ≠ joinChild q c.1 ++ [slashByte])
    (hc : ChildCovered t q c) : ChildCovered t1 q c := by
  obtain ⟨cn, cnode⟩ := c
  cases cnode with
  | file sz mt =>
    exact FileRowAt_insert now objs t t1 h _ sz (fun o ho => (hne o ho).1) hc
  | dir sz mt ds =>
    exact DirRowAt_insert now objs t t1 h _ (fun o ho => (hne o ho).2) hc

theorem batch_path_ne_other_child (p q : GoStr) (hps : endsWithSlash p = true)
    (hqs : endsWithSlash q = true) (hpq : q ≠ p) (c c2 : GoStr × FsNode)
    (hwc : wfName c.1 = true) (hwc2 : wfName c2.1 = true) :
    (childEntry p c).path ≠ joinChild q c2.1 ∧
      (childEntry p c).path ≠ joinChild q c2.1 ++ [slashByte] := by
  obtain ⟨hne1, hns1, -⟩ := wfName_facts c.1 hwc
  obtain ⟨hne2, hns2, -⟩ := wfName_facts c2.1 hwc2
  obtain ⟨cn, cnode⟩ := c
  rw [joinChild_slash q c2.1 hqs]
  cases cnode with
  | file sz mt =>
    rw [show (childEntry p (cn, FsNode.file sz mt)).path = joinChild p cn from rfl,
      joinChild_slash p cn hps]
    constructor
    · intro hc
      exact hpq (parent_unique p q cn c2.1 hps hqs hns1 hns2 hc).1.symm
    · intro hc
      have h1 : endsWithSlash (p ++ cn) = false := endsWithSlash_append_name p cn hne1 hns1
      have h2 : endsWithSlash (q ++ c2.1 ++ [slashByte]) = true := endsWithSlash_concat _
      rw [hc, h2] at h1
      cases h1
  | dir sz mt ds =>
    rw [show (childEntry p (cn, FsNode.dir sz mt ds)).path =
      joinChild p cn ++ [slashByte] from rfl, joinChild_slash p cn hps]
    constructor
    · intro hc
      have h1 : endsWithSlash (p ++ cn ++ [slashByte]) = true := endsWithSlash_concat _
      have h2 : endsWithSlash (q ++ c2.1) = false := endsWithSlash_append_name q c2.1 hne2 hns2
      rw [hc, h2] at h1
      cases h1
    · intro hc
      have hdl := congrArg List.dropLast hc
      simp only [List.dropLast_concat] at hdl
      exact hpq (parent_unique p q cn c2.1 hps hqs hns1 hns2 hdl).1.symm

theorem listPendingDirs_valid (pfx : GoStr) (lim : Nat) (t : Table)
    (h1 : startsWithSlash pfx = false) (h2 : endsWithSlash pfx = true) :
    listPendingDirs pfx lim t =
      .ok ((sortAsc (t.filter (fun e =>
        hasPrefixB e.path pfx && !e.processed && e.isDir))).take lim) := by
  unfold listPendingDirs
  rw [if_neg (by simp [h1]), if_neg (by simp [h2])]

theorem listPendingDirs_empty (pfx : GoStr) (t : Table)
    (h1 : startsWithSlash pfx = false) (h2 : endsWithSlash pfx = true)
    (hq : listPendingDirs pfx 50 t = .ok []) : NoPendingDirs pfx t := by
  rw [listPendingDirs_valid pfx 50 t h1 h2] at hq
  have htake : (sortAsc (t.filter (fun e =>
      hasPrefixB e.path pfx && !e.processed && e.isDir))).take 50 = [] := by
    injection hq
  have hlen := congrArg List.length htake
  rw [List.length_take, sortAsc_length] at hlen
  simp only [List.length_nil] at hlen
  have hfil : (t.filter (fun e =>
      hasPrefixB e.path pfx && !e.processed && e.isDir)).length = 0 := by omega
  have hnil := List.length_eq_zero.mp hfil
  intro e he hup hd
  by_contra hproc
  have hmem : e ∈ t.filter (fun e =>
      hasPrefixB e.path pfx && !e.processed && e.isDir) := by
    refine List.mem_filter.mpr ⟨he, ?_⟩
    simp only [Bool.not_eq_true] at hproc
    simp [hup, hd, hproc]
  rw [hnil] at hmem
  cases hmem

end S3W

namespace S3W

/-! # C7: preservation of the walk invariant -/

theorem walkCore_preserves (tree : FsNode) (pfx : GoStr) (now : Int) (p : GoStr)
    (t t2 : Table) (hw : WfTree tree) (hpes : endsWithSlash pfx = true)
    (hnd : NodupPaths t) (hroot : DirRowAt t pfx) (hInv : WalkInv tree pfx t)
    (hrun : walkCoreM tree pfx now p t = .ok t2) :
    NodupPaths t2 ∧ DirRowAt t2 pfx ∧ WalkInv tree pfx t2 := by
  unfold walkCoreM at hrun
  cases hrd : readDirM tree pfx p with
  | none =>
    simp only [hrd] at hrun
    cases hset : setProcessed p false true t with
    | error msg =>
      simp only [hset] at hrun
      cases hrun
    | ok res =>
      simp only [hset] at hrun
      obtain ⟨k0, t2'⟩ := res
      injection hrun with he
      have he2 : t2' = t2 := he
      rw [he2] at hset
      have hrows := setProcessed_single_rows p t t2 k0 hset
      refine ⟨hrows.2.2 hnd, DirRowAt_setP p t t2 k0 hset pfx hroot, ?_⟩
      intro e2 he2m hproc hup cs2 hrd2 c hc
      obtain ⟨e1, he1, h1, -, -, hpr⟩ := hrows.1 e2 he2m
      rcases hpr with heq | ⟨hep, -⟩
      · have he1p : e1.processed = true := by rw [← heq]; exact hproc
        have hcov := hInv e1 he1 he1p (by rw [← h1]; exact hup) cs2
          (by rw [← h1]; exact hrd2) c hc
        rw [h1]
        exact ChildCovered_setP p t t2 k0 hset e1.path c hcov
      · rw [hep, hrd] at hrd2
        cases hrd2
  | some cs =>
    simp only [hrd] at hrun
    cases hins : insertOp now (cs.map (childEntry p)) t with
    | error msg =>
      simp only [hins] at hrun
      cases hrun
    | ok t1 =>
      simp only [hins] at hrun
      cases hset : setProcessed p false true t1 with
      | error msg =>
      simp only [hset] at hrun
      cases hrun
      | ok res =>
        simp only [hset] at hrun
        obtain ⟨k0, t2'⟩ := res
        injection hrun with he
        have he2 : t2' = t2 := he
        rw [he2] at hset
        have hrows := setProcessed_single_rows p t1 t2 k0 hset
        obtain ⟨hpund, hpsl⟩ := readDirM_some_facts tree pfx p hpes cs hrd
        obtain ⟨hcnd, hcwf, -⟩ := WfTree_readDir tree pfx p cs hw hrd
        have hbnodup := batch_paths_nodup p cs hpsl hcnd hcwf
        have hple : pfx.length ≤ p.length := by
          obtain ⟨r0, hr0⟩ := (hasPrefixB_iff pfx p).mp hpund
          rw [hr0]
          simp
        have hbne_pfx : ∀ o ∈ cs.map (childEntry p), o.path ≠ pfx := by
          intro o ho
          obtain ⟨c0, hc0, rfl⟩ := List.mem_map.mp ho
          intro hcontra
          have hlt := childEntry_path_length p hpsl c0 (hcwf c0 hc0)
          rw [hcontra] at hlt
          omega
        have hnd1 := insertOp_nodup now _ t t1 hins hnd
        refine ⟨hrows.2.2 hnd1,
          DirRowAt_setP p t1 t2 k0 hset pfx
            (DirRowAt_insert now _ t t1 hins pfx hbne_pfx hroot), ?_⟩
        have hcovers := insertOp_covers now (cs.map (childEntry p)) t t1 hins hbnodup
        have hcovp : ∀ c ∈ cs, ChildCovered t1 p c := by
          intro c hcmem
          obtain ⟨e3, he3, hp3, hd3, hs3, hpr3⟩ :=
            hcovers (childEntry p c) (List.mem_map.mpr ⟨c, hcmem, rfl⟩)
          obtain ⟨cn, cnode⟩ := c
          cases cnode with
          | file sz mt => exact ⟨e3, he3, hp3, hs3, hd3, hpr3 rfl⟩
          | dir sz mt ds => exact ⟨e3, he3, hp3, hd3⟩
        intro e2 he2m hproc hup cs2 hrd2 c hcmem2
        obtain ⟨e1, he1, h1, -, -, hpr⟩ := hrows.1 e2 he2m
        obtain ⟨hund2, hsl2⟩ := readDirM_some_facts tree pfx e2.path hpes cs2 hrd2
        obtain ⟨-, hcwf2, -⟩ := WfTree_readDir tree pfx e2.path cs2 hw hrd2
        by_cases hep : e2.path = p
        · have hcs2 : cs2 = cs := by
            rw [hep, hrd] at hrd2
            injection hrd2 with hcc
            exact hcc.symm
          subst hcs2
          rw [hep]
          exact ChildCovered_setP p t1 t2 k0 hset p c (hcovp c hcmem2)
        · have he1p : e1.processed = true := by
            rcases hpr with heq | ⟨hpp, -⟩
            · rw [← heq]; exact hproc
            · exact absurd hpp hep
          have hbne : ∀ o ∈ cs.map (childEntry p),
              o.path ≠ joinChild e2.path c.1 ∧
                o.path ≠ joinChild e2.path c.1 ++ [slashByte] := by
            intro o ho
            obtain ⟨c0, hc0, rfl⟩ := List.mem_map.mp ho
            exact batch_path_ne_other_child p e2.path hpsl hsl2 hep c0 c
              (hcwf c0 hc0) (hcwf2 c hcmem2)
          rcases insertOp_processed_origin now _ t t1 hins e1 he1 he1p with
            ⟨f, hf, hfp, hfproc⟩ | ⟨o, ho, hop, hoproc⟩
          · have hcov := hInv f hf hfproc
              (by rw [hfp, ← h1]; exact hund2) cs2
              (by rw [hfp, ← h1]; exact hrd2) c hcmem2
            have hcov2 : ChildCovered t e2.path c := by
              rw [h1, ← hfp]
              exact hcov
            exact ChildCovered_setP p t1 t2 k0 hset e2.path c
              (ChildCovered_insert now _ t t1 hins e2.path c hbne hcov2)
          · obtain ⟨c0, hc0, rfl⟩ := List.mem_map.mp ho
            obtain ⟨cn, cnode⟩ := c0
            cases cnode with
            | dir sz mt ds => simp [childEntry] at hoproc
            | file sz mt =>
              have hop2 : joinChild p cn = e2.path := by
                rw [← h1] at hop
                exact hop
              obtain ⟨hcne, hcns, -⟩ := wfName_facts cn (hcwf (cn, .file sz mt) hc0)
              have hend : endsWithSlash (joinChild p cn) = false := by
                rw [joinChild_slash p cn hpsl]
                exact endsWithSlash_append_name p cn hcne hcns
              rw [hop2, hsl2] at hend
              cases hend

theorem walkDir_preserves (tree : FsNode) (pfx : GoStr) (now : Int) (p : GoStr)
    (t t2 : Table) (hw : WfTree tree) (hpes : endsWithSlash pfx = true)
    (hnd : NodupPaths t) (hroot : DirRowAt t pfx) (hInv : WalkInv tree pfx t)
    (hrun : walkDirM tree pfx now p t = .ok t2) :
    NodupPaths t2 ∧ DirRowAt t2 pfx ∧ WalkInv tree pfx t2 := by
  unfold walkDirM at hrun
  cases hst : statOp p t with
  | ok e =>
    simp only [hst] at hrun
    by_cases hskip : (!e.isDir || e.processed) = true
    · rw [if_pos hskip] at hrun
      injection hrun with he
      subst he
      exact ⟨hnd, hroot, hInv⟩
    · rw [if_neg hskip] at hrun
      exact walkCore_preserves tree pfx now p t t2 hw hpes hnd hroot hInv hrun
  | error msg =>
    simp only [hst] at hrun
    exact walkCore_preserves tree pfx now p t t2 hw hpes hnd hroot hInv hrun

theorem syncRound_preserves (tree : FsNode) (pfx : GoStr) (now : Int)
    (queue : List EntryInfo) (t : Table) (hw : WfTree tree)
    (hpes : endsWithSlash pfx = true) (hnd : NodupPaths t) (hroot : DirRowAt t pfx)
    (hInv : WalkInv tree pfx t) :
    NodupPaths (syncRound tree pfx now queue t) ∧
      (syncRound tree pfx now queue t |> fun u => DirRowAt u pfx) ∧
      WalkInv tree pfx (syncRound tree pfx now queue t) := by
  unfold syncRound
  generalize queue.reverse = ds
  induction ds generalizing t with
  | nil => exact ⟨hnd, hroot, hInv⟩
  | cons d ds ih =>
    simp only [List.foldl_cons]
    cases hwd : walkDirM tree pfx now d.path t with
    | ok u =>
      simp only [hwd]
      obtain ⟨h1, h2, h3⟩ :=
        walkDir_preserves tree pfx now d.path t u hw hpes hnd hroot hInv hwd
      exact ih u h1 h2 h3
    | error msg =>
      simp only [hwd]
      exact ih t hnd hroot hInv

theorem syncLoop_preserves (tree : FsNode) (pfx : GoStr) (now : Int) :
    ∀ (fuel : Nat) (t t2 : Table), WfTree tree →
    startsWithSlash pfx = false → endsWithSlash pfx = true →
    NodupPaths t → DirRowAt t pfx → WalkInv tree pfx t →
    syncLoop tree pfx now fuel t = some t2 →
    NodupPaths t2 ∧ DirRowAt t2 pfx ∧ WalkInv tree pfx t2 ∧ NoPendingDirs pfx t2 := by
  intro fuel
  induction fuel with
  | zero =>
    intro t t2 _ _ _ _ _ _ h
    cases h
  | succ fuel ih =>
    intro t t2 hw hps hpe hnd hroot hInv h
    rw [syncLoop] at h
    rw [listPendingDirs_valid pfx 50 t hps hpe] at h
    cases hq : (sortAsc (t.filter (fun e =>
        hasPrefixB e.path pfx && !e.processed && e.isDir))).take 50 with
    | nil =>
      simp only [hq] at h
      injection h with he
      subst he
      refine ⟨hnd, hroot, hInv, ?_⟩
      exact listPendingDirs_empty pfx t hps hpe
        (by rw [listPendingDirs_valid pfx 50 t hps hpe, hq])
    | cons d ds =>
      simp only [hq] at h
      obtain ⟨h1, h2, h3⟩ := syncRound_preserves tree pfx now (d :: ds) t hw hpe hnd hroot hInv
      exact ih _ t2 hw hps hpe h1 h2 h3 h

end S3W

namespace S3W

/-! # C7: coverage of the backend tree by a quiescent walked cache -/

theorem cover_list (tree : FsNode) (pfx : GoStr) (t : Table) (hw : WfTree tree)
    (hpes : endsWithSlash pfx = true) (hInv : WalkInv tree pfx t)
    (hnp : NoPendingDirs pfx t) :
    ∀ (n : Nat) (d : GoStr) (cs : List (GoStr × FsNode)), sizeOf cs ≤ n →
      hasPrefixB d pfx = true → DirRowAt t d → readDirM tree pfx d = some cs →
      ∀ q sz, (q, sz) ∈ treeFilesList d cs → FileRowAt t q sz := by
  intro n
  induction n with
  | zero =>
    intro d cs hsz _ _ _ q sz _
    exfalso
    cases cs with
    | nil =>
      simp only [List.nil.sizeOf_spec] at hsz
      omega
    | cons a l =>
      simp only [List.cons.sizeOf_spec] at hsz
      omega
  | succ n ih =>
    intro d cs hsz hund hdrow hrd q sz hq
    have hdsl : endsWithSlash d = true := (readDirM_some_facts tree pfx d hpes cs hrd).2
    obtain ⟨hcnd, hcwf, -⟩ := WfTree_readDir tree pfx d cs hw hrd
    obtain ⟨e, he, hep, hed⟩ := hdrow
    have heproc : e.processed = true := hnp e he (by rw [hep]; exact hund) hed
    have hcov : ∀ c ∈ cs, ChildCovered t d c := by
      intro c hc
      have h0 := hInv e he heproc (by rw [hep]; exact hund) cs (by rw [hep]; exact hrd) c hc
      rw [hep] at h0
      exact h0
    have haux : ∀ rest : List (GoStr × FsNode), (∀ c ∈ rest, c ∈ cs) →
        (q, sz) ∈ treeFilesList d rest → FileRowAt t q sz := by
      intro rest
      induction rest with
      | nil =>
        intro _ hmem
        simp [treeFilesList] at hmem
      | cons c rest ihr =>
        intro hsub hmem
        obtain ⟨cn, cnode⟩ := c
        cases cnode with
        | file csz cmt =>
          simp only [treeFilesList] at hmem
          rcases List.mem_cons.mp hmem with heq | htl
          · injection heq with hq1 hq2
            have hc := hcov (cn, .file csz cmt) (hsub _ (List.mem_cons_self _ _))
            have hc2 : FileRowAt t (joinChild d cn) csz := hc
            rw [joinChild_slash d cn hdsl] at hc2
            rw [hq1, hq2]
            exact hc2
          · exact ihr (fun c hcmem => hsub c (List.mem_cons_of_mem _ hcmem)) htl
        | dir csz cmt ds =>
          simp only [treeFilesList] at hmem
          rcases List.mem_append.mp hmem with hin | htl
          · have hcmem : (cn, FsNode.dir csz cmt ds) ∈ cs :=
              hsub _ (List.mem_cons_self _ _)
            have hszlt : sizeOf ds ≤ n := by
              have h1 := List.sizeOf_lt_of_mem hcmem
              simp only [Prod.mk.sizeOf_spec, FsNode.dir.sizeOf_spec] at h1
              omega
            have hrd2 : readDirM tree pfx (d ++ cn ++ [slashByte]) = some ds := by
              have h2 := readDirM_child tree pfx d cn cs (.dir csz cmt ds) hrd hcmem
                hcnd (hcwf _ hcmem)
              rw [h2]
              rfl
            have hdrow2 : DirRowAt t (d ++ cn ++ [slashByte]) := by
              have hc := hcov _ hcmem
              have hc2 : DirRowAt t (joinChild d cn ++ [slashByte]) := hc
              rw [joinChild_slash d cn hdsl] at hc2
              exact hc2
            have hund2 : hasPrefixB (d ++ cn ++ [slashByte]) pfx = true := by
              rw [List.append_assoc]
              exact hasPrefixB_extend d pfx (cn ++ [slashByte]) hund
            have hin2 : (q, sz) ∈ treeFilesList (d ++ cn ++ [slashByte]) ds := by
              simp only [treeFiles] at hin
              exact hin
            exact ih (d ++ cn ++ [slashByte]) ds hszlt hund2 hdrow2 hrd2 q sz hin2
          · exact ihr (fun c hcmem => hsub c (List.mem_cons_of_mem _ hcmem)) htl
    exact haux cs (fun c hc => hc) hq

theorem statOp_ok_mem (p : GoStr) (t : Table) (e : EntryInfo)
    (h : statOp p t = .ok e) : e ∈ t ∧ e.path = p := by
  unfold statOp at h
  by_cases hs : startsWithSlash p = true
  · rw [if_pos hs] at h
    cases h
  · rw [if_neg hs] at h
    cases hf : t.find? (fun x => x.path == p) with
    | none =>
      rw [hf] at h
      cases h
    | some x =>
      rw [hf] at h
      injection h with hx
      subst hx
      refine ⟨List.mem_of_find?_eq_some hf, ?_⟩
      have h2 := List.find?_some hf
      simpa using h2

theorem getStats_valid (pfx : GoStr) (t : Table) (h1 : startsWithSlash pfx = false)
    (h2 : endsWithSlash pfx = true) :
    getStats pfx t = .ok
      (((t.filter (fun e => hasPrefixB e.path pfx)).filter (fun e => e.processed)).length,
       ((t.filter (fun e => hasPrefixB e.path pfx)).filter (fun e => !e.processed)).length,
       ((t.filter (fun e => hasPrefixB e.path pfx)).map (fun e => e.size)).sum) := by
  unfold getStats
  rw [if_neg (by simp [h1]), if_neg (by simp [h2])]

theorem deleteDanglingFiles_valid (pfx : GoStr) (t : Table)
    (h1 : startsWithSlash pfx = false) (h2 : endsWithSlash pfx = true) :
    deleteDanglingFiles pfx t = .ok
      ((t.filter (fun e => hasPrefixB e.path pfx && !e.isDir && !e.processed)).length,
       t.filter (fun e => !(hasPrefixB e.path pfx && !e.isDir && !e.processed))) := by
  unfold deleteDanglingFiles
  rw [if_neg (by simp [h1]), if_neg (by simp [h2])]

theorem WalkInv_of_allPending (tree : FsNode) (pfx : GoStr) (t : Table)
    (h : AllPendingUnder pfx t) : WalkInv tree pfx t := by
  intro e he hproc hund
  rw [h e he hund] at hproc
  cases hproc

theorem sync_insert_setup (now : Int) (pfx : GoStr) (t0 t1 : Table)
    (hnd : NodupPaths t0) (hpend : AllPendingUnder pfx t0)
    (hins : insertOp now [⟨pfx, 0, now, true, 0, false⟩] t0 = .ok t1) :
    NodupPaths t1 ∧ DirRowAt t1 pfx ∧ AllPendingUnder pfx t1 := by
  refine ⟨insertOp_nodup now _ t0 t1 hins hnd, ?_, ?_⟩
  · obtain ⟨e2, he2, hp2, hd2, -, -⟩ := insertOp_covers now _ t0 t1 hins (by simp)
      ⟨pfx, 0, now, true, 0, false⟩ (List.mem_singleton.mpr rfl)
    exact ⟨e2, he2, hp2, hd2⟩
  · intro e2 he2 hu
    by_contra hproc2
    simp only [Bool.not_eq_false] at hproc2
    rcases insertOp_processed_origin now _ t0 t1 hins e2 he2 hproc2 with
      ⟨f, hf, hfp, hfproc⟩ | ⟨o, ho, hop, hoproc⟩
    · have h3 := hpend f hf (by rw [hfp]; exact hu)
      rw [h3] at hfproc
      cases hfproc
    · rw [List.mem_singleton] at ho
      subst ho
      exact Bool.noConfusion hoproc

theorem syncTail_post (tree : FsNode) (pfx : GoStr) (now : Int) (fuel : Nat)
    (t1 tF : Table) (hw : WfTree tree) (hps : startsWithSlash pfx = false)
    (hpe : endsWithSlash pfx = true) (hnd1 : NodupPaths t1) (hroot1 : DirRowAt t1 pfx)
    (hpend1 : AllPendingUnder pfx t1)
    (hrun : (match getStats pfx t1 with
      | .error _ => none
      | .ok (_, pending, _) =>
        if pending == 0 then some t1
        else
          match syncLoop tree pfx now fuel t1 with
          | none => none
          | some t2 =>
            match deleteDanglingFiles pfx t2 with
            | .error _ => some t2
            | .ok r => some r.2) = some tF) :
    (∀ q sz, (q, sz) ∈ treeFiles pfx tree → FileRowAt tF q sz) ∧
    (∀ e ∈ tF, hasPrefixB e.path pfx = true → e.isDir = false → e.processed = true) ∧
    (∃ a b2, getStats pfx tF = .ok (a, 0, b2)) := by
  have hpendpos : 0 < ((t1.filter (fun e => hasPrefixB e.path pfx)).filter
      (fun e => !e.processed)).length := by
    obtain ⟨e, he, hep, hed⟩ := hroot1
    have hu : hasPrefixB e.path pfx = true := by rw [hep]; exact hasPrefixB_refl pfx
    have hp := hpend1 e he hu
    have hm : e ∈ (t1.filter (fun e => hasPrefixB e.path pfx)).filter
        (fun e => !e.processed) :=
      List.mem_filter.mpr ⟨List.mem_filter.mpr ⟨he, hu⟩, by simp [hp]⟩
    exact List.length_pos.mpr (List.ne_nil_of_mem hm)
  simp only [getStats_valid pfx t1 hps hpe] at hrun
  rw [if_neg (by simp only [beq_iff_eq]; omega)] at hrun
  cases hloop : syncLoop tree pfx now fuel t1 with
  | none =>
    simp only [hloop] at hrun
    cases hrun
  | some t2 =>
    simp only [hloop] at hrun
    obtain ⟨hnd2, hroot2, hInv2, hnp2⟩ := syncLoop_preserves tree pfx now fuel t1 t2
      hw hps hpe hnd1 hroot1 (WalkInv_of_allPending tree pfx t1 hpend1) hloop
    simp only [deleteDanglingFiles_valid pfx t2 hps hpe] at hrun
    injection hrun with htF
    have hsub : ∀ e ∈ tF, e ∈ t2 := by
      intro e he
      rw [← htF] at he
      exact List.mem_of_mem_filter he
    have hpost2 : ∀ e ∈ tF, hasPrefixB e.path pfx = true → e.isDir = false →
        e.processed = true := by
      intro e he hu hd
      rw [← htF] at he
      have hk := List.of_mem_filter he
      simpa [hu, hd] using hk
    refine ⟨?_, hpost2, ?_⟩
    · intro q sz hq
      cases htr : tree with
      | file s m =>
        rw [htr] at hq
        simp [treeFiles] at hq
      | dir s m cs0 =>
        rw [htr] at hq
        simp only [treeFiles] at hq
        have hrd0 : readDirM tree pfx pfx = some cs0 := readDirM_root tree pfx s m cs0 htr
        have hrow := cover_list tree pfx t2 hw hpe hInv2 hnp2 (sizeOf cs0) pfx cs0
          le_rfl (hasPrefixB_refl pfx) hroot2 hrd0 q sz hq
        obtain ⟨e, he, hep, hes, hed, hepr⟩ := hrow
        refine ⟨e, ?_, hep, hes, hed, hepr⟩
        rw [← htF]
        refine List.mem_filter.mpr ⟨he, ?_⟩
        simp [hepr]
    · refine ⟨((tF.filter (fun e => hasPrefixB e.path pfx)).filter
        (fun e => e.processed)).length,
        ((tF.filter (fun e => hasPrefixB e.path pfx)).map (fun e => e.size)).sum, ?_⟩
      have hzero : (tF.filter (fun e => hasPrefixB e.path pfx)).filter
          (fun e => !e.processed) = [] := by
        rw [List.filter_eq_nil_iff]
        intro e hem
        have hu := List.of_mem_filter hem
        have het : e ∈ tF := List.mem_of_mem_filter hem
        by_cases hd : e.isDir = true
        · have hpr := hnp2 e (hsub e het) hu hd
          simp [hpr]
        · have hpr := hpost2 e het hu (by simpa using hd)
          simp [hpr]
      rw [getStats_valid pfx tF hps hpe, hzero]
      rfl

end S3W

namespace S3W

/-- C7: the spec claims that after `sync(B)` completes without backend
errors, every backend file under `B` is cached with its size, no
unprocessed file under `B` survives, and `get_stats(B + "/")` reports
`pending = 0`.  Counterexample to the unconditional claim: with the
backend bucket `b` holding the file `x`, but a cache whose root row `b/`
is already `processed` (so `pending = 0`), `Sync.Sync` returns
immediately after the stats check; the run completes without any backend
error, yet the backend file `b/x` is absent from the final cache. -/
theorem C7_sync_counterexample :
    syncM tree1 [98] 3 5 [dirRow pB true] = some [dirRow pB true] ∧
    ([98, 47, 120], (5 : Int)) ∈ treeFiles ([98] ++ [slashByte]) tree1 ∧
    ¬ FileRowAt [dirRow pB true] [98, 47, 120] 5 := by
  refine ⟨by decide, by decide, ?_⟩
  unfold FileRowAt
  decide

/-- C7 (amended): for a well-formed backend tree and bucket name, if
every cache row under the bucket starts out unprocessed (a fresh or
freshly reset cache) and `Sync.Sync` completes, then every backend file
under the bucket is cached with its backend size and marked processed,
every file row under the bucket in the final cache is processed (the
dangling sweep removed the rest), and `GetStats` reports zero pending
entries. -/
theorem C7_sync_amended (tree : FsNode) (bucket : GoStr) (now : Int) (fuel : Nat)
    (t0 tF : Table) (hw : WfTree tree) (hb : wfName bucket = true)
    (hnd : NodupPaths t0) (hpend : AllPendingUnder (bucket ++ [slashByte]) t0)
    (hrun : syncM tree bucket now fuel t0 = some tF) :
    (∀ q sz, (q, sz) ∈ treeFiles (bucket ++ [slashByte]) tree → FileRowAt tF q sz) ∧
    (∀ e ∈ tF, hasPrefixB e.path (bucket ++ [slashByte]) = true → e.isDir = false →
      e.processed = true) ∧
    (∃ a b2, getStats (bucket ++ [slashByte]) tF = .ok (a, 0, b2)) := by
  obtain ⟨hps, hpe, -⟩ := pfx_shape bucket hb
  simp only [syncM] at hrun
  cases hst0 : statOp (bucket ++ [slashByte]) t0 with
  | ok e0 =>
    simp only [hst0] at hrun
    by_cases hdir : e0.isDir = true
    · rw [if_pos hdir] at hrun
      obtain ⟨hmem, hpath⟩ := statOp_ok_mem _ t0 e0 hst0
      exact syncTail_post tree (bucket ++ [slashByte]) now fuel t0 tF hw hps hpe hnd
        ⟨e0, hmem, hpath, hdir⟩ hpend hrun
    · rw [if_neg hdir] at hrun
      cases hins : insertOp now [⟨bucket ++ [slashByte], 0, now, true, 0, false⟩] t0 with
      | error msg =>
        simp only [hins] at hrun
        cases hrun
      | ok t1 =>
        simp only [hins] at hrun
        obtain ⟨hnd1, hroot1, hpend1⟩ := sync_insert_setup now _ t0 t1 hnd hpend hins
        exact syncTail_post tree (bucket ++ [slashByte]) now fuel t1 tF hw hps hpe hnd1
          hroot1 hpend1 hrun
  | error msg =>
    simp only [hst0] at hrun
    rw [if_neg (fun h => Bool.noConfusion h)] at hrun
    cases hins : insertOp now [⟨bucket ++ [slashByte], 0, now, true, 0, false⟩] t0 with
    | error msg2 =>
      simp only [hins] at hrun
      cases hrun
    | ok t1 =>
      simp only [hins] at hrun
      obtain ⟨hnd1, hroot1, hpend1⟩ := sync_insert_setup now _ t0 t1 hnd hpend hins
      exact syncTail_post tree (bucket ++ [slashByte]) now fuel t1 tF hw hps hpe hnd1
        hroot1 hpend1 hrun

/-- C7 (witness): the amended theorem applied to the one-file bucket
`tree1` synced into an empty cache. -/
theorem C7_sync_amended_witness :
    WfTree tree1 ∧ wfName [98] = true ∧ NodupPaths ([] : Table) ∧
    AllPendingUnder ([98] ++ [slashByte]) ([] : Table) ∧
    ((∀ q sz, (q, sz) ∈ treeFiles ([98] ++ [slashByte]) tree1 → FileRowAt tFw q sz) ∧
      (∀ e ∈ tFw, hasPrefixB e.path ([98] ++ [slashByte]) = true → e.isDir = false →
        e.processed = true) ∧
      (∃ a b2, getStats ([98] ++ [slashByte]) tFw = .ok (a, 0, b2))) := by
  have hw1 : WfTree tree1 := by
    show WfTree (FsNode.dir 0 0 [([120], FsNode.file 5 7)])
    refine WfTree.dir 0 0 [([120], FsNode.file 5 7)] (by decide) (by decide) ?_
    intro c hc
    rw [List.mem_singleton] at hc
    subst hc
    exact WfTree.file 5 7
  refine ⟨hw1, by decide, by decide, by decide, ?_⟩
  exact C7_sync_amended tree1 [98] 3 5 [] tFw hw1 (by decide) (by decide) (by decide)
    (by decide)

end S3W
